import Mathlib

/-!
Verification of the grounding pipeline of this repository: the citation
verifier (`src/appeal/verify.ts`), the text chunker (`src/utils/chunker.ts`),
the TF-IDF retrieval engine (`src/kb/tfidf.ts`, `src/kb/store.ts`) and the
multi-query aggregator (`src/kb/retrieve.ts`).

Strings are modelled as lists of characters (`Str`).  JavaScript regular
expressions are modelled by a small backtracking engine (`Re`, `reEnds`)
whose preference order matches the JS engine (alternation left to right,
greedy quantifiers longest first).  JavaScript numbers are modelled as real
numbers where the code performs arithmetic (`log`, `sqrt`), and as `Nat`
where the code manipulates indices.
-/

/-- Strings as char lists (JS strings are sequences of UTF-16 units; all
inputs considered here are ASCII). -/
abbrev Str := List Char

/-- Coerce a Lean string literal to the model. -/
def str (s : String) : Str := s.data

/-- JS `\s` restricted to the ASCII range (space, tab, LF, VT, FF, CR). -/
def isSpaceJS (c : Char) : Bool :=
  c == ' ' || c == '\t' || c == '\n' || c == '\r' || c.toNat == 11 || c.toNat == 12

/-- JS `\w`: `[A-Za-z0-9_]`. -/
def isWordChar (c : Char) : Bool :=
  ('a' ≤ c && c ≤ 'z') || ('A' ≤ c && c ≤ 'Z') || ('0' ≤ c && c ≤ '9') || c == '_'

/-- JS `\d`. -/
def isDigitC (c : Char) : Bool := '0' ≤ c && c ≤ '9'

/-- Case-insensitive comparison against a lowercase pattern char `p`. -/
def eqCi (p : Char) (c : Char) : Bool :=
  c == p || ('a' ≤ p && p ≤ 'z' && c.toNat + 32 == p.toNat)

/-- JS `String.prototype.trim` (ASCII whitespace). -/
def trimStr (l : Str) : Str :=
  ((l.dropWhile isSpaceJS).reverse.dropWhile isSpaceJS).reverse

/-- JS `String.prototype.includes` (substring test). -/
def containsSub : Str → Str → Bool
  | h, n => if n.isPrefixOf h then true else
      match h with
      | [] => false
      | _ :: t => containsSub t n

/-- JS `String.prototype.indexOf`: least index where `n` occurs in `h`. -/
def indexOfSub : Str → Str → Option Nat
  | h, n => if n.isPrefixOf h then some 0 else
      match h with
      | [] => none
      | _ :: t => (indexOfSub t n).map (· + 1)

/-- JS `String.prototype.lastIndexOf`: greatest index where `n` occurs. -/
def lastIndexOfSub (h n : Str) : Option Nat :=
  (((List.range (h.length + 1)).filter (fun i => n.isPrefixOf (h.drop i)))).getLast?

/-- Subsequence test (used to refute "differs only by insertions"). -/
def isSubseq : Str → Str → Bool
  | [], _ => true
  | _ :: _, [] => false
  | a :: as, b :: bs => if a == b then isSubseq as bs else isSubseq (a :: as) bs

/-- `Array.prototype.join(sep)`. -/
def joinStr (sep : Str) : List Str → Str
  | [] => []
  | [x] => x
  | x :: xs => x ++ sep ++ joinStr sep xs

/-- `s.replace(/,/g, "")`. -/
def stripCommas (s : Str) : Str := s.filter (fun c => c != ',')

-- ───────────────────────── Regex engine ─────────────────────────

/-- Abstract syntax of the regular expressions used by the verifier and the
chunker.  `cls` is a one-character class, `wb` is `\b`, `star` is greedy. -/
inductive Re where
  | cls (p : Char → Bool)
  | eps
  | seq (a b : Re)
  | alt (a b : Re)
  | star (a : Re)
  | wb

/-- Iterate a greedy quantifier body (given as an end-position function)
from position `i`; results in preference order (longest first), bounded by
`fuel` iterations.  Only progress-making iterations recurse, so `fuel =
s.length + 1` never runs out. -/
def starEndsF (f : Nat → List Nat) : Nat → Nat → List Nat
  | i, 0 => [i]
  | i, fuel + 1 =>
      (((f i).filter (fun j => i < j)).flatMap (fun j => starEndsF f j fuel)) ++ [i]

/-- All end positions (in JS backtracking preference order) of a match of
`re` starting at position `i` of `s`. -/
def reEnds (s : Str) : Re → Nat → List Nat
  | .cls p, i =>
      match s.get? i with
      | some c => if p c then [i + 1] else []
      | none => []
  | .eps, i => [i]
  | .wb, i =>
      let pw := match (if i == 0 then none else s.get? (i - 1)) with
        | some c => isWordChar c
        | none => false
      let nw := match s.get? i with
        | some c => isWordChar c
        | none => false
      if pw != nw then [i] else []
  | .seq a b, i => (reEnds s a i).flatMap (fun j => reEnds s b j)
  | .alt a b, i => reEnds s a i ++ reEnds s b i
  | .star a, i => starEndsF (fun k => reEnds s a k) i (s.length + 1)

/-- Scan for the leftmost match of `re` in `s` at positions `≥ i`
(`fuel` bounds the scan; callers pass `s.length + 1`). -/
def scanMatch (re : Re) (s : Str) : Nat → Nat → Option (Nat × Nat)
  | 0, _ => none
  | fuel + 1, i =>
      if s.length < i then none
      else match reEnds s re i with
        | [] => scanMatch re s fuel (i + 1)
        | e :: _ => some (i, e)

/-- Leftmost match of `re` in `s` from position `i`: `(start, end)`. -/
def firstMatchFrom (re : Re) (s : Str) (i : Nat) : Option (Nat × Nat) :=
  scanMatch re s (s.length + 1) i

/-- `re.test(s)` for a regex without the `g` flag. -/
def testRe (re : Re) (s : Str) : Bool := (firstMatchFrom re s 0).isSome

/-- `s.match(re)` with the `g` flag: the list of matched substrings. -/
def matchAllAux (re : Re) (s : Str) : Nat → Nat → List Str
  | 0, _ => []
  | fuel + 1, i =>
      match firstMatchFrom re s i with
      | none => []
      | some (j, e) => ((s.drop j).take (e - j)) :: matchAllAux re s fuel (if j < e then e else j + 1)

def matchAllRe (re : Re) (s : Str) : List Str := matchAllAux re s (s.length + 2) 0

/-- `s.replace(re, "")` (first match removed; empty replacement). -/
def replaceFirstRe (re : Re) (s : Str) : Str :=
  match firstMatchFrom re s 0 with
  | none => s
  | some (j, e) => s.take j ++ s.drop e

-- Combinators used to transcribe the source regexes.
def rchar (c : Char) : Re := .cls (fun d => d == c)
def rcharCi (c : Char) : Re := .cls (eqCi c)
def rcat : List Re → Re := List.foldr Re.seq Re.eps
def rstrL (l : Str) : Re := rcat (l.map rchar)
def rstrCi (l : Str) : Re := rcat (l.map rcharCi)
def rplus (a : Re) : Re := .seq a (.star a)
def ropt (a : Re) : Re := .alt a .eps
def rrep (a : Re) : Nat → Re
  | 0 => .eps
  | n + 1 => .seq a (rrep a n)
def raltList : List Re → Re
  | [] => .cls (fun _ => false)
  | [x] => x
  | x :: xs => .alt x (raltList xs)
def rdigit : Re := .cls isDigitC
def rws : Re := .cls isSpaceJS

-- ───────────────────────── Grounding verifier (src/appeal/verify.ts) ─────────────────────────

/-- `[\d,]`. -/
def isDigitComma (c : Char) : Bool := isDigitC c || c == ','

/-- `/\$[\d,]+(?:\.\d{2})?/` — dollar amounts. -/
def dollarRe : Re :=
  rcat [rchar '$', rplus (.cls isDigitComma), ropt (rcat [rchar '.', rrep rdigit 2])]

/-- `/\b\d{1,3}(?:,\d{3})*(?:\.\d+)?\s*(?:dollars?|USD)/i`. -/
def dollarsWordRe : Re :=
  rcat [Re.wb, rdigit, ropt (.seq rdigit (ropt rdigit)),
        .star (rcat [rchar ',', rrep rdigit 3]),
        ropt (.seq (rchar '.') (rplus rdigit)),
        .star rws,
        .alt (.seq (rstrCi (str "dollar")) (ropt (rcharCi 's'))) (rstrCi (str "usd"))]

/-- `/\b\d{4}-\d{2}-\d{2}\b/` — ISO dates. -/
def isoDateRe : Re :=
  rcat [Re.wb, rrep rdigit 4, rchar '-', rrep rdigit 2, rchar '-', rrep rdigit 2, Re.wb]

/-- `/\b(?:January|…|December)\s+\d{1,2},?\s+\d{4}\b/i` — long-form dates. -/
def longDateRe : Re :=
  rcat [Re.wb,
        raltList ([str "january", str "february", str "march", str "april", str "may",
          str "june", str "july", str "august", str "september", str "october",
          str "november", str "december"].map rstrCi),
        rplus rws, rdigit, ropt rdigit, ropt (rchar ','), rplus rws, rrep rdigit 4, Re.wb]

/-- `/\b\d+\s+(?:days?|sessions?|visits?|units?)\b/i` — counts. -/
def countsRe : Re :=
  rcat [Re.wb, rplus rdigit, rplus rws,
        raltList [.seq (rstrCi (str "day")) (ropt (rcharCi 's')),
                  .seq (rstrCi (str "session")) (ropt (rcharCi 's')),
                  .seq (rstrCi (str "visit")) (ropt (rcharCi 's')),
                  .seq (rstrCi (str "unit")) (ropt (rcharCi 's'))],
        Re.wb]

/-- `/\b\d+%\b/` — percentages. -/
def percentRe : Re := rcat [Re.wb, rplus rdigit, rchar '%', Re.wb]

/-- `/\bwithin\s+\d+\s+days?\b/i` — deadlines. -/
def withinRe : Re :=
  rcat [Re.wb, rstrCi (str "within"), rplus rws, rplus rdigit, rplus rws,
        rstrCi (str "day"), ropt (rcharCi 's'), Re.wb]

/-- `/\blimit(?:ed)?\s+to\s+\d+\b/i` — limits. -/
def limitRe : Re :=
  rcat [Re.wb, rstrCi (str "limit"), ropt (rstrCi (str "ed")), rplus rws,
        rstrCi (str "to"), rplus rws, rplus rdigit, Re.wb]

/-- `/\bCPT\s+\d{4,5}\b/i` — CPT codes. -/
def cptRe : Re :=
  rcat [Re.wb, rstrCi (str "cpt"), rplus rws, rrep rdigit 4, ropt rdigit, Re.wb]

/-- `/\bICD-?\d+\b/i` — ICD codes. -/
def icdRe : Re :=
  rcat [Re.wb, rstrCi (str "icd"), ropt (rchar '-'), rplus rdigit, Re.wb]

/-- `NUMERIC_CLAIM_PATTERNS` in source order. -/
def numericClaimPatterns : List Re :=
  [dollarRe, dollarsWordRe, isoDateRe, longDateRe, countsRe, percentRe, withinRe,
   limitRe, cptRe, icdRe]

/-- `hasNumericClaim`: `NUMERIC_CLAIM_PATTERNS.some((re) => re.test(sentence))`
(these regexes carry no `g` flag, so `test` is stateless). -/
def hasNumericClaim (sentence : Str) : Bool :=
  numericClaimPatterns.any (fun re => testRe re sentence)

/-- `NEEDS_EVIDENCE_RE = /\[NEEDS EVIDENCE:[^\]]+\]/gi` (pattern part). -/
def markerRe : Re :=
  rcat [rstrCi (str "[needs evidence:"), rplus (.cls (fun c => c != ']')), rchar ']']

/-- `NEEDS_EVIDENCE_RE.test(s)` with the `g` flag: the regex object is a
module-level constant, so its `lastIndex` survives between calls.  The search
starts at `lastIndex`; on success `lastIndex` becomes the match end, on
failure it resets to 0.  Returns (result, new lastIndex). -/
def hasNeedsEvidenceSt (lastIndex : Nat) (s : Str) : Bool × Nat :=
  match firstMatchFrom markerRe s lastIndex with
  | some (_, e) => (true, e)
  | none => (false, 0)

/-- State-free marker presence (what `hasNeedsEvidence` computes when
`lastIndex = 0`). -/
def containsMarkerB (s : Str) : Bool := testRe markerRe s

/-- `/\b\d[\d,]*(?:\.\d+)?\b/g` — generic numeric tokens. -/
def numbersRe : Re :=
  rcat [Re.wb, rdigit, .star (.cls isDigitComma), ropt (.seq (rchar '.') (rplus rdigit)), Re.wb]

/-- `/CPT\s+/i` (used with `String.replace` to strip the CPT prefix). -/
def cptPrefixRe : Re := .seq (rstrCi (str "cpt")) (rplus rws)

/-- The needles extracted by `citationCoversValue`: dollar amounts, generic
numbers and CPT codes, comma-stripped, CPT-prefix-stripped, trimmed. -/
def needlesOf (sentence : Str) : List Str :=
  let dollarAmounts := matchAllRe dollarRe sentence
  let numbers := matchAllRe numbersRe sentence
  let cptCodes := matchAllRe cptRe sentence
  (dollarAmounts ++ numbers ++ cptCodes).map
    (fun n => trimStr (replaceFirstRe cptPrefixRe (stripCommas n)))

inductive CitationKind where
  | denialCaseSpan
  | kbChunk
deriving DecidableEq, Repr

structure Citation where
  kind : CitationKind
  docId : Str
  start : Nat
  endPos : Nat
  snippet : Str
  label : Str
deriving DecidableEq, Repr

/-- `citationCoversValue`: empty citation list fails immediately; an empty
needle set passes; otherwise some snippet (comma-stripped) must contain some
non-empty needle. -/
def citationCoversValue (sentence : Str) (citations : List Citation) : Bool :=
  if citations.length == 0 then false
  else
    let needles := needlesOf sentence
    if needles.length == 0 then true
    else citations.any (fun c =>
      needles.any (fun n => decide (0 < n.length) && containsSub (stripCommas c.snippet) n))

-- ── splitSentences ──
-- `/(?<=[.!?])\s+(?=[A-Z\[])|(?<=\n)\s*(?=[A-Z\[])|(?<=[:.])\n+/`
-- Alternatives are tried left to right at each position; `\s+`/`\s*` are
-- greedy but followed by a lookahead whose class is disjoint from
-- whitespace, so only the maximal whitespace run can match.

/-- `[A-Z\[]`. -/
def isUpperOrBracket (c : Char) : Bool := ('A' ≤ c && c ≤ 'Z') || c == '['

/-- Length of the run of `p`-chars of `s` starting at `i`. -/
def runLen (p : Char → Bool) (s : Str) (i : Nat) : Nat :=
  ((s.drop i).takeWhile p).length

/-- Match of the sentence separator regex at position `q` (end position). -/
def sepMatchAt (s : Str) (q : Nat) : Option Nat :=
  let prev := if q == 0 then none else s.get? (q - 1)
  let alt1 :=
    match prev with
    | some c =>
        if c == '.' || c == '!' || c == '?' then
          let L := runLen isSpaceJS s q
          if 1 ≤ L && (s.get? (q + L)).any isUpperOrBracket then some (q + L) else none
        else none
    | none => none
  match alt1 with
  | some e => some e
  | none =>
    let alt2 :=
      match prev with
      | some c =>
          if c == '\n' then
            let L := runLen isSpaceJS s q
            if (s.get? (q + L)).any isUpperOrBracket then some (q + L) else none
          else none
      | none => none
    match alt2 with
    | some e => some e
    | none =>
      match prev with
      | some c =>
          if c == ':' || c == '.' then
            let L := runLen (fun d => d == '\n') s q
            if 1 ≤ L then some (q + L) else none
          else none
      | none => none

/-- The ECMAScript `String.prototype.split` loop for a regex separator:
`p` is the start of the current piece, `q` the scan position; an empty
separator match at `q = p` is skipped. -/
def splitAux (s : Str) : Nat → Nat → Nat → List Str
  | 0, p, _ => [(s.drop p)]
  | fuel + 1, p, q =>
      if s.length ≤ q then [(s.drop p)]
      else
        match sepMatchAt s q with
        | none => splitAux s fuel p (q + 1)
        | some e =>
            if e == p then splitAux s fuel p (q + 1)
            else ((s.drop p).take (q - p)) :: splitAux s fuel e e

/-- `splitSentences`: split on the separator regex, trim, drop empties. -/
def splitSentences (s : Str) : List Str :=
  ((splitAux s (2 * s.length + 4) 0 0).map trimStr).filter (fun p => decide (0 < p.length))

-- ── String.replace with a string pattern ──

/-- ECMAScript `GetSubstitution` for a string search value (no capture
groups): `$$`, `$&`, `` $` `` and `$'` are special; everything else is
literal. -/
def substJS (matched before after : Str) : Str → Str
  | '$' :: '$' :: t => '$' :: substJS matched before after t
  | '$' :: '&' :: t => matched ++ substJS matched before after t
  | '$' :: '`' :: t => before ++ substJS matched before after t
  | '$' :: '\'' :: t => after ++ substJS matched before after t
  | c :: t => c :: substJS matched before after t
  | [] => []

/-- `s.replace(needle, repl)` for string `needle`: first occurrence only,
with `$`-escape processing of `repl`. -/
def replaceJS (s needle repl : Str) : Str :=
  match indexOfSub s needle with
  | none => s
  | some i =>
      let before := s.take i
      let after := s.drop (i + needle.length)
      before ++ substJS needle before after repl ++ after

/-- `true` iff the template contains none of the `$`-escape pairs, i.e.
`substJS` leaves it unchanged. -/
def noSpecialsB : Str → Bool
  | '$' :: c :: t =>
      if c == '$' || c == '&' || c == '`' || c == '\'' then false
      else noSpecialsB (c :: t)
  | _ :: t => noSpecialsB t
  | [] => true

-- ── verifySections ──

structure LetterSection where
  id : Str
  title : Str
  content : Str
  citations : List Citation
  warnings : Option (List Str)
deriving DecidableEq, Repr

structure VerificationResult where
  sections : List LetterSection
  unresolvedClaims : List Str
  warnings : List Str
deriving DecidableEq, Repr

/-- `/\b\d+\s+(?:days?|sessions?|visits?)\b/gi` (the patch-message variant,
without `units`). -/
def countsPatchRe : Re :=
  rcat [Re.wb, rplus rdigit, rplus rws,
        raltList [.seq (rstrCi (str "day")) (ropt (rcharCi 's')),
                  .seq (rstrCi (str "session")) (ropt (rcharCi 's')),
                  .seq (rstrCi (str "visit")) (ropt (rcharCi 's'))],
        Re.wb]

/-- The `numericValues` string computed for an uncovered sentence. -/
def numericValuesOf (sentence : Str) : Str :=
  joinStr (str ", ")
    (matchAllRe dollarRe sentence ++ matchAllRe countsPatchRe sentence ++
      matchAllRe cptRe sentence)

/-- The `placeholder` literal inserted after an uncovered sentence. -/
def placeholderOf (sentence : Str) : Str :=
  if 0 < (numericValuesOf sentence).length then
    str "[NEEDS EVIDENCE: source for " ++ numericValuesOf sentence ++ str "]"
  else str "[NEEDS EVIDENCE: citation for numeric claim in this sentence]"

/-- The entry pushed onto `unresolvedClaims` for an uncovered sentence. -/
def gapMsg (title sentence : Str) : Str :=
  title ++ str ": numeric claim needs citation — \"" ++ sentence.take 80 ++ str "...\""

/-- One iteration of the sentence loop of `verifySections` (lines 117–142):
state is (patched content, unresolvedClaims so far, regex lastIndex). -/
def sentenceStep (title : Str) (citations : List Citation)
    (acc : Str × List Str × Nat) (sentence : Str) : Str × List Str × Nat :=
  let (content, gaps, st) := acc
  if !hasNumericClaim sentence then (content, gaps, st)
  else
    let (b, st1) := hasNeedsEvidenceSt st sentence
    if b then (content, gaps, st1)
    else if citationCoversValue sentence citations then (content, gaps, st1)
    else
      (replaceJS content sentence (sentence ++ str " " ++ placeholderOf sentence),
       gaps ++ [gapMsg title sentence], st1)

/-- Per-section body of `verifySections`: returns the patched section and
updated accumulators (done sections, unresolvedClaims, warnings, lastIndex). -/
def processSection (acc : List LetterSection × List Str × List Str × Nat)
    (sec : LetterSection) : List LetterSection × List Str × List Str × Nat :=
  let (done, gaps, warns, st) := acc
  let sectionWarnings := sec.warnings.getD []
  -- `citations.length > 0 || hasNeedsEvidence(content)` (short-circuit).
  let (hasCit, st1) :=
    if 0 < sec.citations.length then (true, st) else hasNeedsEvidenceSt st sec.content
  let noCitWarn := !hasCit && sec.id != str "header" && sec.id != str "closing"
  let sectionWarnings1 :=
    if noCitWarn then
      sectionWarnings ++
        [str "Section \"" ++ sec.title ++ str "\" has no citations and no NEEDS EVIDENCE placeholders."]
    else sectionWarnings
  let warns1 :=
    if noCitWarn then
      warns ++ [str "Section \"" ++ sec.title ++ str "\" missing citations — verify supporting evidence"]
    else warns
  let sentences := splitSentences sec.content
  let (pc, gaps1, st2) := sentences.foldl (sentenceStep sec.title sec.citations) (sec.content, gaps, st1)
  let w2 := if 0 < sectionWarnings1.length then some sectionWarnings1 else none
  (done ++ [{ sec with content := pc, warnings := w2 }], gaps1, warns1, st2)

/-- `verifySections` with the module-level regex state threaded explicitly;
returns the result and the final `lastIndex` of `NEEDS_EVIDENCE_RE`. -/
def verifySectionsSt (st : Nat) (sections : List LetterSection) :
    VerificationResult × Nat :=
  let (done, gaps, warns, st1) := sections.foldl processSection ([], [], [], st)
  ({ sections := done, unresolvedClaims := gaps, warnings := warns }, st1)

/-- `verifySections` as called in a fresh module (lastIndex 0). -/
def verifySections (sections : List LetterSection) : VerificationResult :=
  (verifySectionsSt 0 sections).1

-- ───────────────────────── Chunker (src/utils/chunker.ts) ─────────────────────────

structure TextChunk where
  index : Nat
  text : Str
  start : Nat
  endPos : Nat
deriving DecidableEq, Repr

/-- `/[.!?]\s+[A-Z]/` — the sentence-boundary search pattern. -/
def sbRe : Re :=
  rcat [.cls (fun c => c == '.' || c == '!' || c == '?'), rplus rws,
        .cls (fun c => 'A' ≤ c && c ≤ 'Z')]

/-- The search window of one loop iteration:
`text.slice(Math.max(end - 200, pos), end)`. -/
def chunkWindow (text : Str) (pos en : Nat) : Str :=
  (text.drop (max (en - 200) pos)).take (en - max (en - 200) pos)

/-- The break position chosen inside the loop body when `end < text.length`
(paragraph break, else sentence boundary, else last space, else the raw
candidate end), before the minimum-size check. -/
def rawBreak (text : Str) (pos en : Nat) : Nat :=
  match lastIndexOfSub (chunkWindow text pos en) (str "\n\n") with
  | some p => max (en - 200) pos + p + 2
  | none =>
    match (firstMatchFrom sbRe (chunkWindow text pos en) 0).map (fun m => m.1) with
    | some sB => max (en - 200) pos + sB + 1
    | none =>
      match lastIndexOfSub (chunkWindow text pos en) (str " ") with
      | some sp => max (en - 200) pos + sp + 1
      | none => en

/-- The final `splitAt` of one loop iteration.  `Math.floor(chunkSize * 0.4)`
is modelled as `(2 * chunkSize) / 5`, which is the exact value of
`⌊0.4·chunkSize⌋`. -/
def splitAtOf (text : Str) (cs pos : Nat) : Nat :=
  if min (pos + cs) text.length < text.length then
    if rawBreak text pos (min (pos + cs) text.length) ≤ pos + (2 * cs) / 5 then
      min (pos + cs) text.length
    else rawBreak text pos (min (pos + cs) text.length)
  else min (pos + cs) text.length

/-- `text.slice(pos, splitAt).trim()`. -/
def chunkPiece (text : Str) (cs pos : Nat) : Str :=
  trimStr ((text.drop pos).take (splitAtOf text cs pos - pos))

/-- The chunk list contributed by one iteration (empty when the trimmed
piece is empty). -/
def chunkHere (text : Str) (cs pos idx : Nat) : List TextChunk :=
  if 0 < (chunkPiece text cs pos).length then
    [{ index := idx, text := chunkPiece text cs pos, start := pos,
       endPos := splitAtOf text cs pos }]
  else []

/-- `Math.max(splitAt - overlap, pos + 1)`. -/
def chunkNext (text : Str) (cs ov pos : Nat) : Nat :=
  max (splitAtOf text cs pos - ov) (pos + 1)

/-- The `while` loop of `chunkText`; `none` on fuel exhaustion (shown
unreachable for `fuel > text.length - pos`). -/
def chunkLoop (text : Str) (cs ov : Nat) : Nat → Nat → Nat → Option (List TextChunk)
  | 0, _, _ => none
  | fuel + 1, pos, idx =>
      if pos < text.length then
        if text.length ≤ chunkNext text cs ov pos then some (chunkHere text cs pos idx)
        else
          match chunkLoop text cs ov fuel (chunkNext text cs ov pos)
              (if 0 < (chunkPiece text cs pos).length then idx + 1 else idx) with
          | none => none
          | some l => some (chunkHere text cs pos idx ++ l)
      else some []

/-- `chunkText` with explicit fuel (`text.length` iterations always
suffice because the cursor advances by at least one per iteration). -/
def chunkTextO (text : Str) (cs ov : Nat) : Option (List TextChunk) :=
  if (trimStr text).length == 0 then some []
  else chunkLoop text cs ov (text.length + 1) 0 0

/-- `chunkText(text, chunkSize, overlap)`. -/
def chunkText (text : Str) (cs ov : Nat) : List TextChunk :=
  (chunkTextO text cs ov).getD []

-- ───────────────────────── TF-IDF (src/kb/tfidf.ts) ─────────────────────────

/-- Sparse term vectors: JS objects keyed by term, in insertion order with
distinct keys.  Weights are JS numbers, modelled as reals. -/
abbrev TFIDFVector := List (Str × ℝ)

/-- First binding of `k` (JS property lookup). -/
def vecLookup (v : TFIDFVector) (k : Str) : Option ℝ :=
  (v.find? (fun p => p.1 == k)).map (fun p => p.2)

/-- The stop-word set of `tfidf.ts`. -/
def stopWords : List Str :=
  [str "a", str "an", str "the", str "and", str "or", str "but", str "in", str "on",
   str "at", str "to", str "for", str "of", str "with", str "by", str "from", str "up",
   str "about", str "into", str "through", str "during", str "is", str "are", str "was",
   str "were", str "be", str "been", str "being", str "have", str "has", str "had",
   str "do", str "does", str "did", str "will", str "would", str "could", str "should",
   str "may", str "might", str "shall", str "can", str "not", str "no", str "nor",
   str "so", str "yet", str "both", str "either", str "neither", str "each", str "few",
   str "more", str "most", str "other", str "some", str "such", str "than", str "too",
   str "very", str "just", str "as", str "if", str "then", str "that", str "this",
   str "these", str "those", str "it", str "its", str "he", str "she", str "they",
   str "we", str "you", str "i", str "me", str "my", str "our", str "your", str "their",
   str "his", str "her", str "which", str "who", str "whom", str "what", str "when",
   str "where", str "why", str "how"]

/-- ASCII lowercase (JS `toLowerCase` restricted to ASCII inputs). -/
def lowerC (c : Char) : Char :=
  if 'A' ≤ c && c ≤ 'Z' then Char.ofNat (c.toNat + 32) else c

/-- Keep `[a-z0-9\s\-#]`, replace everything else by a space (after
lowercasing). -/
def cleanC (c : Char) : Char :=
  if ('a' ≤ c && c ≤ 'z') || isDigitC c || isSpaceJS c || c == '-' || c == '#' then c
  else ' '

theorem dropWhile_len_le (p : Char → Bool) (l : Str) : (l.dropWhile p).length ≤ l.length := by
  induction l with
  | nil => simp
  | cons c t ih =>
    by_cases h : p c
    · simp only [List.dropWhile, h, List.length_cons]
      omega
    · simp [List.dropWhile, h]

theorem dropWhile_head_not (p : Char → Bool) (l : Str) (c : Char) (t : Str)
    (h : l.dropWhile p = c :: t) : p c = false := by
  induction l with
  | nil => simp at h
  | cons x xs ih =>
    by_cases hx : p x
    · exact ih (by simpa [List.dropWhile, hx] using h)
    · simp only [List.dropWhile, hx] at h
      cases h
      simpa using hx

/-- `text.split(/\s+/)` (leading/trailing empty pieces included, as in JS;
they are removed by the length filter below). -/
def splitWsJS (s : Str) : List Str :=
  match hrest : s.dropWhile (fun c => !isSpaceJS c) with
  | [] => [s.takeWhile (fun c => !isSpaceJS c)]
  | r :: rs =>
      have hr : isSpaceJS r = true := by
        have := dropWhile_head_not (fun c => !isSpaceJS c) s r rs hrest
        simpa using this
      have hlt : ((r :: rs).dropWhile isSpaceJS).length < s.length := by
        have h1 : (r :: rs).length ≤ s.length := by
          rw [← hrest]; exact dropWhile_len_le _ s
        have h2 : (r :: rs).dropWhile isSpaceJS = rs.dropWhile isSpaceJS := by
          simp [List.dropWhile, hr]
        have h3 : (rs.dropWhile isSpaceJS).length ≤ rs.length := dropWhile_len_le _ rs
        simp only [h2]
        simp only [List.length_cons] at h1
        omega
      s.takeWhile (fun c => !isSpaceJS c) :: splitWsJS ((r :: rs).dropWhile isSpaceJS)
termination_by s.length
decreasing_by
  exact hlt

/-- `tokenize`: lowercase, strip characters outside `[a-z0-9\s\-#]`, split
on whitespace, drop length-≤1 tokens and stop words, then append bigrams. -/
def tokenize (text : Str) : List Str :=
  let words := ((splitWsJS ((text.map lowerC).map cleanC)).filter
    (fun w => decide (1 < w.length) && !stopWords.contains w))
  words ++ (words.zip words.tail).map (fun p => p.1 ++ str "_" ++ p.2)

/-- Insertion-ordered counting map (JS object update semantics). -/
def bumpCount (m : List (Str × Nat)) (t : Str) : List (Str × Nat) :=
  match m with
  | [] => [(t, 1)]
  | (k, n) :: rest => if k == t then (k, n + 1) :: rest else (k, n) :: bumpCount rest t

/-- `computeTF`: `ln(1 + count)` per term, in first-occurrence order. -/
noncomputable def computeTF (tokens : List Str) : TFIDFVector :=
  (tokens.foldl bumpCount []).map (fun p => (p.1, Real.log (1 + (p.2 : ℝ))))

/-- Document frequencies over a corpus of vectors. -/
def dfOf (vectors : List TFIDFVector) : List (Str × Nat) :=
  vectors.foldl (fun m v => (v.map Prod.fst).foldl bumpCount m) []

/-- `computeIDF`: `ln((N+1)/(df+1)) + 1`; empty map for an empty corpus. -/
noncomputable def computeIDF (vectors : List TFIDFVector) : TFIDFVector :=
  if vectors.length == 0 then []
  else (dfOf vectors).map
    (fun p => (p.1, Real.log ((vectors.length + 1 : ℝ) / ((p.2 : ℝ) + 1)) + 1))

/-- `buildVector`: TF times IDF, defaulting unseen terms to `ln 2`. -/
noncomputable def buildVector (text : Str) (idf : TFIDFVector) : TFIDFVector :=
  (computeTF (tokenize text)).map
    (fun p => (p.1, p.2 * ((vecLookup idf p.1).getD (Real.log (1 + 1)))))

/-- Sum of squared weights (the squared L2 norm accumulated by
`cosineSimilarity`). -/
def sumSq (v : TFIDFVector) : ℝ := (v.map (fun p => p.2 * p.2)).sum

/-- The dot product accumulated by `cosineSimilarity` (terms of `a` that are
present in `b`). -/
def dotProd (a b : TFIDFVector) : ℝ :=
  (a.map (fun p =>
    match vecLookup b p.1 with
    | some w => p.2 * w
    | none => 0)).sum

/-- `cosineSimilarity`: dot over product of norms; 0 when the denominator
is 0. -/
noncomputable def cosineSimilarity (a b : TFIDFVector) : ℝ :=
  if Real.sqrt (sumSq a) * Real.sqrt (sumSq b) = 0 then 0
  else dotProd a b / (Real.sqrt (sumSq a) * Real.sqrt (sumSq b))

/-- `scoreQuery`. -/
noncomputable def scoreQuery (query : Str) (storedVector idf : TFIDFVector) : ℝ :=
  cosineSimilarity (buildVector query idf) storedVector

-- ───────────────────────── KB store search (src/kb/store.ts) ─────────────────────────

/-- One row of the `chunks ⋈ docs` join loaded by `search` (the serialized
`vectorJson`/`tagsJson` columns are modelled by their parsed values; the
`catch`-branches of the parses return `{}`/`[]` and are out of scope). -/
structure JoinedRow where
  chunkId : Str
  docId : Str
  chunkIndex : Nat
  text : Str
  vector : TFIDFVector
  payerName : Option Str
  docType : Str
  tags : List Str
  createdAt : Str

structure SearchFilters where
  payerName : Option Str
  docType : Option Str
  tags : Option (List Str)

structure ChunkMeta where
  payerName : Option Str
  docType : Str
  tags : List Str
  createdAt : Str

structure RetrievedChunk where
  chunkId : Str
  docId : Str
  text : Str
  score : ℝ
  spans : List (Nat × Nat)
  meta : ChunkMeta

/-- The SQL `WHERE` clause of `search`: each condition is added only when
the filter value is truthy (a JS empty string is falsy, so an empty-string
filter adds no condition); the `payerName` condition also admits rows with
`NULL` owner. -/
def rowMatches (f : SearchFilters) (r : JoinedRow) : Bool :=
  (match f.payerName with
   | some p => if p.length == 0 then true else (r.payerName.isNone || r.payerName == some p)
   | none => true) &&
  (match f.docType with
   | some d => if d.length == 0 then true else r.docType == d
   | none => true)

/-- The tag boost of `search`: `score *= 1 + 0.1 * matchingTagCount` when a
non-empty tag filter matches at least one tag. -/
noncomputable def tagBoost (f : SearchFilters) (r : JoinedRow) (score : ℝ) : ℝ :=
  match f.tags with
  | some ts =>
      if 0 < ts.length then
        let nMatches := (ts.filter (fun t => r.tags.contains t)).length
        if 0 < nMatches then score * (1 + (nMatches : ℝ) * (1 / 10)) else score
      else score
  | none => score

/-- The candidate rows selected by the SQL pre-filter of `search`. -/
def searchCands (rows : List JoinedRow) (f : SearchFilters) : List JoinedRow :=
  rows.filter (rowMatches f)

/-- The scored candidate list of `search` (IDF computed over exactly the
candidate set). -/
noncomputable def searchScored (rows : List JoinedRow) (query : Str)
    (f : SearchFilters) : List (JoinedRow × ℝ) :=
  (searchCands rows f).map (fun r =>
    (r, tagBoost f r (scoreQuery query r.vector
      (computeIDF ((searchCands rows f).map (fun r => r.vector))))))

/-- Row-to-result conversion of `search`. -/
def toRetrieved (p : JoinedRow × ℝ) : RetrievedChunk :=
  { chunkId := p.1.chunkId, docId := p.1.docId, text := p.1.text, score := p.2,
    spans := [(0, p.1.text.length)],
    meta := { payerName := p.1.payerName, docType := p.1.docType,
              tags := p.1.tags, createdAt := p.1.createdAt } }

/-- `KBStore.search` over a snapshot of joined rows: filter, empty check,
candidate-scoped IDF, cosine scoring with soft tag boost, stable descending
sort, top-K, conversion. -/
noncomputable def search (rows : List JoinedRow) (query : Str) (f : SearchFilters)
    (topK : Nat) : List RetrievedChunk :=
  if (searchCands rows f).length == 0 then []
  else (((searchScored rows query f).mergeSort
      (fun a b => decide (b.2 ≤ a.2))).take topK).map toRetrieved

-- ───────────────────────── Multi-query aggregator (src/kb/retrieve.ts) ─────────────────────────

structure SourceSpan where
  docId : Str
  start : Nat
  endPos : Nat
  snippet : Str
  label : Str

/-- `ExtractedField<T>` of `types.ts`. -/
structure ExtractedField (α : Type) where
  value : Option α
  confidence : ℝ
  spans : List SourceSpan

/-- `ServiceStatus` (`"PARTIAL"` is rendered `partialStatus`). -/
inductive ServiceStatus where
  | denied
  | approved
  | partialStatus
  | unknown

structure ServiceItem where
  serviceName : Str
  cptCodes : List Str
  amountRequested : Option ℝ
  currency : Str
  status : ServiceStatus

structure PolicyReference where
  policyId : Str
  title : Option Str

/-- The fields of `DenialCase` read by `retrieveForCase` (the remaining
fields of the TS interface are never consulted by the aggregator and are
omitted). -/
structure DenialCase where
  caseId : Str
  payerName : ExtractedField Str
  denialCategory : ExtractedField Str
  services : ExtractedField (List ServiceItem)
  policyReferences : ExtractedField (List PolicyReference)
  providerName : ExtractedField Str

/-- The six query batteries derived from a case (query 4 present only when
a policy reference string exists). -/
def derivedQueries (dc : DenialCase) : List (Str × SearchFilters) :=
  let payer := dc.payerName.value
  let category := dc.denialCategory.value.getD (str "other")
  let cptCodes := joinStr (str " ") ((dc.services.value.getD []).flatMap (fun s => s.cptCodes))
  let policyRefs := joinStr (str " ") ((dc.policyReferences.value.getD []).map (fun p => p.policyId))
  let serviceName := joinStr (str " ") ((dc.services.value.getD []).map (fun s => s.serviceName))
  [(trimStr (payer.getD [] ++ str " " ++ policyRefs ++ str " " ++ category ++ str " denial appeal"),
    { payerName := payer, docType := none, tags := none }),
   (cptCodes ++ str " " ++ category ++ str " appeal medical necessity functional improvement",
    { payerName := none, docType := none, tags := none }),
   (trimStr (payer.getD [] ++ str " " ++ serviceName ++ str " successful appeal " ++ category),
    { payerName := payer, docType := some (str "prior_appeal_accepted"), tags := none })] ++
  (if 0 < policyRefs.length then
    [(policyRefs, { payerName := none, docType := some (str "policy"), tags := none })]
   else []) ++
  [(serviceName ++ str " " ++ category ++ str " clinical documentation sessions benefit limit",
    { payerName := none, docType := some (str "clinical"), tags := none }),
   (category ++ str " appeal letter template",
    { payerName := none, docType := some (str "template"), tags := none })]

/-- `Map.set` semantics of the dedup map: replace in place on key hit
(keeping the first-insertion position), append otherwise.  A chunk replaces
the stored one only when its score is strictly greater. -/
noncomputable def mergeChunk (seen : List (Str × RetrievedChunk)) (c : RetrievedChunk) :
    List (Str × RetrievedChunk) :=
  match seen with
  | [] => [(c.chunkId, c)]
  | (k, e) :: rest =>
      if k == c.chunkId then
        if e.score < c.score then (k, c) :: rest else (k, e) :: rest
      else (k, e) :: mergeChunk rest c

/-- The dedup map built by the query loop of `retrieveForCase`. -/
noncomputable def mergedMap (rows : List JoinedRow) (dc : DenialCase)
    (topKPerQuery : Nat) : List (Str × RetrievedChunk) :=
  (derivedQueries dc).foldl
    (fun acc qf =>
      if (trimStr qf.1).length == 0 then acc
      else (search rows qf.1 qf.2 topKPerQuery).foldl mergeChunk acc)
    []

/-- `retrieveForCase`: run each non-blank derived query with per-query K,
merge by chunk identity keeping the maximum score, sort descending, cap. -/
noncomputable def retrieveForCase (rows : List JoinedRow) (dc : DenialCase)
    (topKPerQuery maxTotal : Nat) : List RetrievedChunk :=
  (((mergedMap rows dc topKPerQuery).map (fun p => p.2)).mergeSort
    (fun a b => decide (b.score ≤ a.score))).take maxTotal

-- ───────────────────────── Concrete inputs used by counterexamples ─────────────────────────

/-- A section with one uncited dollar claim (as in the repository's own
verifier unit test, shortened). -/
def secPay5 : LetterSection :=
  { id := str "s1", title := str "T", content := str "Pay $5.", citations := [],
    warnings := none }

/-- A section whose content already carries a marker and nothing else. -/
def secMarked : LetterSection :=
  { id := str "s", title := str "S", content := str "[NEEDS EVIDENCE: x]", citations := [],
    warnings := none }

/-- A section whose flagged sentence contains the JS replacement escape
`$$`. -/
def secDollarDollar : LetterSection :=
  { id := str "x", title := str "T", content := str "Pay $$5.", citations := [],
    warnings := none }

-- ───────────────────────── C1 ─────────────────────────

/-- C1 (code bug): verification is NOT idempotent.  On the single section
`"Pay $5."` the first pass appends one marker; on the second pass the
sentence splitter detaches the marker into its own sentence, so the original
sentence no longer contains a marker, is re-flagged, and receives a second
identical marker, and `unresolvedClaims` is non-empty again — contradicting
`verify(verify(x).patchedSections) == verify(x)` (no new markers, empty
unresolved list). -/
theorem verify_idempotence_code_bug :
    (verifySections (verifySections [secPay5]).sections).unresolvedClaims =
      [gapMsg (str "T") (str "Pay $5.")] ∧
    (verifySections (verifySections [secPay5]).sections).sections.map
        (fun s => s.content) =
      [str "Pay $5. [NEEDS EVIDENCE: source for $5] [NEEDS EVIDENCE: source for $5]"] ∧
    (verifySections [secPay5]).sections.map (fun s => s.content) =
      [str "Pay $5. [NEEDS EVIDENCE: source for $5]"] := by
  refine ⟨by decide, by decide, by decide⟩

-- ───────────────────────── C2 ─────────────────────────

/-- C2 (code bug): `verifySections` is not a pure function of its input.
`NEEDS_EVIDENCE_RE` is a module-level regex with the `g` flag, so its
`lastIndex` survives between calls; after a first call on a section whose
content is exactly one marker, `lastIndex` sits at the end of the string and
the second call on the very same input fails to see the marker, emitting a
missing-citations warning that the first call did not emit. -/
theorem verify_purity_code_bug :
    (verifySectionsSt ((verifySectionsSt 0 [secMarked]).2) [secMarked]).1 ≠
      (verifySectionsSt 0 [secMarked]).1 ∧
    (verifySectionsSt 0 [secMarked]).1.warnings = [] ∧
    (verifySectionsSt ((verifySectionsSt 0 [secMarked]).2) [secMarked]).1.warnings =
      [str "Section \"S\" missing citations — verify supporting evidence"] := by
  refine ⟨by decide, by decide, by decide⟩

-- ───────────────────────── C4 ─────────────────────────

/-- C4 (counterexample): the sentence `"Diagnosis ICD9 applies."` is flagged
(ICD pattern) and yields an empty extracted-value set (the digit of `ICD9`
has no word boundary before it), yet with an empty citation list
`citationCoversValue` reports *uncovered* — the claim says an empty
extracted set passes with no citation required. -/
theorem coverage_empty_needles_counterexample :
    hasNumericClaim (str "Diagnosis ICD9 applies.") = true ∧
    needlesOf (str "Diagnosis ICD9 applies.") = [] ∧
    citationCoversValue (str "Diagnosis ICD9 applies.") [] = false := by
  refine ⟨by decide, by decide, by decide⟩

/-- C4 (amended): `citationCoversValue` returns uncovered for an empty
citation list regardless of the extracted set; otherwise an empty extracted
set passes, and otherwise the sentence is covered iff some attached
citation's comma-stripped snippet contains some non-empty extracted value
(dollar amounts, comma-stripped numeric tokens, CPT codes). -/
theorem citationCoversValue_amended (s : Str) (citations : List Citation) :
    citationCoversValue s citations = true ↔
      (citations ≠ [] ∧
        (needlesOf s = [] ∨
          ∃ c ∈ citations, ∃ n ∈ needlesOf s,
            n ≠ [] ∧ containsSub (stripCommas c.snippet) n = true)) := by
  simp only [citationCoversValue]
  split_ifs with h1 h2
  · have : citations = [] := List.length_eq_zero.mp (by simpa using h1)
    simp [this]
  · have hcne : citations ≠ [] := by
      intro h
      simp [h] at h1
    have : needlesOf s = [] := List.length_eq_zero.mp (by simpa using h2)
    simp [this, hcne]
  · have hcne : citations ≠ [] := by
      intro h
      simp [h] at h1
    have hnne : needlesOf s ≠ [] := by
      intro h
      simp [h] at h2
    simp only [List.any_eq_true, Bool.and_eq_true, decide_eq_true_eq]
    constructor
    · rintro ⟨c, hcmem, n, hnmem, hpos, hsub⟩
      refine ⟨hcne, Or.inr ⟨c, hcmem, n, hnmem, ?_, hsub⟩⟩
      intro hnil
      rw [hnil] at hpos
      simp at hpos
    · rintro ⟨_, h | ⟨c, hcmem, n, hnmem, hne, hsub⟩⟩
      · exact absurd h hnne
      · refine ⟨c, hcmem, n, hnmem, ?_, hsub⟩
        cases n with
        | nil => exact absurd rfl hne
        | cons a t => simp

/-- Witness for the amended C4 at the repository's own test case: the
snippet `"The total amount you may owe the provider is: $450.00"` covers
the sentence `"Patient owes $450.00 for this service."`. -/
theorem citationCoversValue_amended_witness :
    citationCoversValue (str "Patient owes $450.00 for this service.")
      [{ kind := .denialCaseSpan, docId := str "d", start := 820, endPos := 880,
         snippet := str "The total amount you may owe the provider is: $450.00",
         label := str "patientResponsibilityAmount" }] = true :=
  (citationCoversValue_amended _ _).mpr (by refine ⟨by decide, Or.inr ?_⟩; decide)

-- ───────────────────────── Chunker lemmas ─────────────────────────

theorem trimStr_eq_nil_iff (l : Str) : trimStr l = [] ↔ ∀ c ∈ l, isSpaceJS c = true := by
  unfold trimStr
  constructor
  · intro h c hc
    by_contra hcs
    have h1 : c ∈ l.dropWhile isSpaceJS ∨ c ∈ l.takeWhile isSpaceJS := by
      have := List.takeWhile_append_dropWhile (p := isSpaceJS) (l := l)
      rw [← this] at hc
      rcases List.mem_append.mp hc with h | h
      · exact Or.inr h
      · exact Or.inl h
    rcases h1 with h1 | h1
    · have h2 : c ∈ (l.dropWhile isSpaceJS).reverse := by simpa using h1
      have h3 : c ∈ ((l.dropWhile isSpaceJS).reverse.dropWhile isSpaceJS) ∨
          c ∈ ((l.dropWhile isSpaceJS).reverse.takeWhile isSpaceJS) := by
        have := List.takeWhile_append_dropWhile (p := isSpaceJS)
          (l := (l.dropWhile isSpaceJS).reverse)
        rw [← this] at h2
        rcases List.mem_append.mp h2 with h | h
        · exact Or.inr h
        · exact Or.inl h
      rcases h3 with h3 | h3
      · rw [List.reverse_eq_nil_iff] at h
        rw [h] at h3
        simp at h3
      · exact hcs (List.mem_takeWhile_imp h3)
    · exact hcs (List.mem_takeWhile_imp h1)
  · intro h
    have h1 : l.dropWhile isSpaceJS = [] := List.dropWhile_eq_nil_iff.mpr (fun c hc => h c hc)
    simp [h1]

theorem trimStr_length_le (l : Str) : (trimStr l).length ≤ l.length := by
  unfold trimStr
  calc ((l.dropWhile isSpaceJS).reverse.dropWhile isSpaceJS).reverse.length
      = ((l.dropWhile isSpaceJS).reverse.dropWhile isSpaceJS).length := by simp
    _ ≤ (l.dropWhile isSpaceJS).reverse.length := dropWhile_len_le _ _
    _ = (l.dropWhile isSpaceJS).length := by simp
    _ ≤ l.length := dropWhile_len_le _ _

theorem dropWhile_eq_self_of_length (p : Char → Bool) (l : Str)
    (h : (l.dropWhile p).length = l.length) : l.dropWhile p = l := by
  cases l with
  | nil => simp
  | cons c t =>
    by_cases hc : p c
    · exfalso
      rw [List.dropWhile_cons_of_pos hc] at h
      have := dropWhile_len_le p t
      simp only [List.length_cons] at h
      omega
    · exact List.dropWhile_cons_of_neg hc

/-- If trimming changes nothing, the leading character is not whitespace. -/
theorem trimStr_eq_self_head (l : Str) (c : Char) (t : Str)
    (h : trimStr l = l) (hl : l = c :: t) : isSpaceJS c = false := by
  have h1 : (l.dropWhile isSpaceJS).length = l.length := by
    have h2 := trimStr_length_le l
    have h3 : (trimStr l).length ≤ (l.dropWhile isSpaceJS).length := by
      unfold trimStr
      calc ((l.dropWhile isSpaceJS).reverse.dropWhile isSpaceJS).reverse.length
          = ((l.dropWhile isSpaceJS).reverse.dropWhile isSpaceJS).length := by simp
        _ ≤ (l.dropWhile isSpaceJS).reverse.length := dropWhile_len_le _ _
        _ = (l.dropWhile isSpaceJS).length := by simp
    have h4 := dropWhile_len_le isSpaceJS l
    rw [h] at h3
    omega
  have h5 := dropWhile_eq_self_of_length isSpaceJS l h1
  subst hl
  by_contra hcs
  rw [List.dropWhile_cons_of_pos (by simpa using hcs)] at h5
  have := dropWhile_len_le isSpaceJS t
  have : (t.dropWhile isSpaceJS).length = t.length + 1 := by rw [h5]; simp
  omega

/-- If trimming changes nothing and the list is non-empty, it contains a
non-whitespace character among its last `k` characters… specialised: the
final character is not whitespace. -/
theorem trimStr_eq_self_last (l : Str) (h : trimStr l = l) (hne : l ≠ []) :
    ∃ c t, l.reverse = c :: t ∧ isSpaceJS c = false := by
  have hrev : l.reverse = (((l.dropWhile isSpaceJS).reverse).dropWhile isSpaceJS) := by
    conv_lhs => rw [← h]
    unfold trimStr
    simp
  cases hr : l.reverse with
  | nil => simp_all
  | cons c t =>
    refine ⟨c, t, rfl, ?_⟩
    rw [hr] at hrev
    exact dropWhile_head_not isSpaceJS _ c t hrev.symm

theorem lastIndexOfSub_bound (h n : Str) (i : Nat) (hi : lastIndexOfSub h n = some i) :
    i + n.length ≤ h.length := by
  unfold lastIndexOfSub at hi
  have hmem := List.mem_of_mem_getLast? hi
  rw [List.mem_filter] at hmem
  obtain ⟨hrange, hpre⟩ := hmem
  have hlen : n.length ≤ (h.drop i).length := (List.isPrefixOf_iff_prefix.mp hpre).length_le
  rw [List.length_drop] at hlen
  have := List.mem_range.mp hrange
  omega

theorem scanMatch_some (re : Re) (s : Str) (fuel i0 j e : Nat)
    (h : scanMatch re s fuel i0 = some (j, e)) :
    reEnds s re j ≠ [] ∧ i0 ≤ j ∧ j ≤ s.length := by
  induction fuel generalizing i0 with
  | zero => simp [scanMatch] at h
  | succ f ih =>
    rw [scanMatch] at h
    by_cases hlen : s.length < i0
    · simp [hlen] at h
    · simp only [if_neg hlen] at h
      cases hr : reEnds s re i0 with
      | nil =>
        rw [hr] at h
        obtain ⟨h1, h2, h3⟩ := ih (i0 + 1) h
        exact ⟨h1, by omega, h3⟩
      | cons x xs =>
        rw [hr] at h
        simp only [Option.some.injEq, Prod.mk.injEq] at h
        obtain ⟨h1, _⟩ := h
        subst h1
        exact ⟨by rw [hr]; simp, le_refl _, by omega⟩

/-- A sequence headed by a character class can only match where a character
exists. -/
theorem seq_cls_lt_length (s : Str) (p : Char → Bool) (b : Re) (j : Nat)
    (h : reEnds s (.seq (.cls p) b) j ≠ []) : j < s.length := by
  by_contra hge
  apply h
  have hnone : s[j]? = none := by
    rw [List.getElem?_eq_none_iff]
    omega
  simp [reEnds, hnone]

theorem rawBreak_le (text : Str) (pos en : Nat) (hpe : pos ≤ en) (hen : en ≤ text.length) :
    rawBreak text pos en ≤ en := by
  have hwlen : (chunkWindow text pos en).length = en - max (en - 200) pos := by
    rw [chunkWindow, List.length_take, List.length_drop]
    omega
  unfold rawBreak
  split
  · rename_i p hpb
    have := lastIndexOfSub_bound _ _ _ hpb
    rw [hwlen] at this
    have hlen2 : (str "\n\n").length = 2 := by decide
    omega
  · split
    · rename_i sB hsb
      cases hm : firstMatchFrom sbRe (chunkWindow text pos en) 0 with
      | none =>
        rw [hm] at hsb
        simp at hsb
      | some me =>
        obtain ⟨j, e⟩ := me
        rw [hm] at hsb
        simp at hsb
        obtain ⟨hne, _, _⟩ := scanMatch_some _ _ _ _ _ _ hm
        have hj : j < (chunkWindow text pos en).length := seq_cls_lt_length _ _ _ _ hne
        rw [hwlen] at hj
        omega
    · split
      · rename_i sp hsp
        have := lastIndexOfSub_bound _ _ _ hsp
        rw [hwlen] at this
        have hlen1 : (str " ").length = 1 := by decide
        omega
      · omega

theorem splitAtOf_bounds (text : Str) (cs pos : Nat) (hpos : pos < text.length)
    (hcs : 1 ≤ cs) : pos < splitAtOf text cs pos ∧ splitAtOf text cs pos ≤ text.length := by
  rw [splitAtOf]
  by_cases hen : min (pos + cs) text.length < text.length
  · simp only [if_pos hen]
    have hb := rawBreak_le text pos (min (pos + cs) text.length) (by omega) (by omega)
    by_cases hmin : rawBreak text pos (min (pos + cs) text.length) ≤ pos + 2 * cs / 5
    · simp only [if_pos hmin]
      omega
    · simp only [if_neg hmin]
      omega
  · simp only [if_neg hen]
    omega

/-- The first character of a trimmed string is not whitespace. -/
theorem trimStr_head_not (l : Str) (c : Char) (t : Str) (h : trimStr l = c :: t) :
    isSpaceJS c = false := by
  have hrepr : trimStr l =
      ((l.dropWhile isSpaceJS).reverse.dropWhile isSpaceJS).reverse := rfl
  rw [hrepr] at h
  have hBne : (l.dropWhile isSpaceJS).reverse.dropWhile isSpaceJS ≠ [] := by
    intro hB
    rw [hB] at h
    simp at h
  have hlast : ((l.dropWhile isSpaceJS).reverse.dropWhile isSpaceJS).getLast? = some c := by
    rw [← List.head?_reverse, h]
    rfl
  obtain ⟨u, hu⟩ := List.dropWhile_suffix (l := (l.dropWhile isSpaceJS).reverse) isSpaceJS
  have hlast2 : (l.dropWhile isSpaceJS).reverse.getLast? = some c := by
    rw [← hu, List.getLast?_append_of_ne_nil _ hBne]
    exact hlast
  rw [List.getLast?_reverse] at hlast2
  cases hA : l.dropWhile isSpaceJS with
  | nil =>
    rw [hA] at hlast2
    simp at hlast2
  | cons a t2 =>
    rw [hA] at hlast2
    simp only [List.head?_cons, Option.some.injEq] at hlast2
    subst hlast2
    exact dropWhile_head_not isSpaceJS l a t2 hA

/-- The last character of a trimmed string is not whitespace. -/
theorem trimStr_last_not (l : Str) (c : Char) (t : Str) (h : (trimStr l).reverse = c :: t) :
    isSpaceJS c = false := by
  have hrepr : (trimStr l).reverse =
      (l.dropWhile isSpaceJS).reverse.dropWhile isSpaceJS := by
    unfold trimStr
    simp
  rw [hrepr] at h
  exact dropWhile_head_not isSpaceJS _ c t h

/-- Trimming is idempotent. -/
theorem trimStr_idem (l : Str) : trimStr (trimStr l) = trimStr l := by
  cases hm : trimStr l with
  | nil => rfl
  | cons c t =>
    have hc := trimStr_head_not l c t hm
    have h1 : List.dropWhile isSpaceJS (c :: t) = c :: t :=
      List.dropWhile_cons_of_neg (by simp [hc])
    show (List.dropWhile isSpaceJS (List.dropWhile isSpaceJS (c :: t)).reverse).reverse = c :: t
    rw [h1]
    cases hr : (c :: t).reverse with
    | nil => simp at hr
    | cons d ds =>
      have hd := trimStr_last_not l d ds (by rw [hm]; exact hr)
      rw [List.dropWhile_cons_of_neg (by simp [hd])]
      rw [← hr]
      simp

theorem chunkNext_ge (text : Str) (cs ov pos : Nat) : pos + 1 ≤ chunkNext text cs ov pos :=
  le_max_right _ _

/-- If the loop is about to stop, the current `splitAt` reaches the end of
the text. -/
theorem terminal_splitAt (text : Str) (cs ov pos : Nat) (hpos : pos < text.length)
    (hcs : 1 ≤ cs) (hstop : text.length ≤ chunkNext text cs ov pos) :
    splitAtOf text cs pos = text.length := by
  obtain ⟨h1, h2⟩ := splitAtOf_bounds text cs pos hpos hcs
  rw [chunkNext] at hstop
  rcases max_cases (splitAtOf text cs pos - ov) (pos + 1) with ⟨heq, _⟩ | ⟨heq, _⟩ <;>
    rw [heq] at hstop
  · omega
  · -- pos + 1 ≥ text.length, so pos = text.length - 1 and end = text.length
    have hpe : pos + 1 = text.length := by omega
    rw [splitAtOf]
    have : ¬ (min (pos + cs) text.length < text.length) := by omega
    simp only [if_neg this]
    omega

/-- In a trim-invariant non-empty text, the final slice trims to a
non-empty piece. -/
theorem chunkPiece_final (text : Str) (cs pos : Nat) (hpos : pos < text.length)
    (hsa : splitAtOf text cs pos = text.length) (htrim : trimStr text = text)
    (hne : text ≠ []) : 0 < (chunkPiece text cs pos).length := by
  have hdroplen : (text.drop pos).length = text.length - pos := List.length_drop _ _
  have htake : (text.drop pos).take (splitAtOf text cs pos - pos) = text.drop pos := by
    apply List.take_of_length_le
    omega
  rw [chunkPiece, htake]
  obtain ⟨c, t, hrev, hcs'⟩ := trimStr_eq_self_last text htrim hne
  by_contra hlen
  have hnil : trimStr (text.drop pos) = [] := by
    cases h : trimStr (text.drop pos) with
    | nil => rfl
    | cons x xs =>
      rw [h] at hlen
      simp at hlen
  rw [trimStr_eq_nil_iff] at hnil
  have hdne : text.drop pos ≠ [] := by
    intro h
    rw [h] at hdroplen
    simp at hdroplen
    omega
  have hsplit : text.reverse = (text.drop pos).reverse ++ (text.take pos).reverse := by
    rw [← List.reverse_append, List.take_append_drop]
  cases hd : (text.drop pos).reverse with
  | nil =>
    rw [List.reverse_eq_nil_iff] at hd
    exact hdne hd
  | cons e es =>
    rw [hd] at hsplit
    rw [hsplit] at hrev
    simp only [List.cons_append, List.cons.injEq] at hrev
    obtain ⟨hce, _⟩ := hrev
    have hemem : e ∈ text.drop pos := by
      have : e ∈ (text.drop pos).reverse := by rw [hd]; simp
      simpa using this
    have := hnil e hemem
    rw [hce] at this
    rw [this] at hcs'
    simp at hcs'

/-- The chunk loop never exhausts its fuel when `fuel > text.length - pos`. -/
theorem chunkLoop_isSome (text : Str) (cs ov : Nat) :
    ∀ fuel pos idx, text.length - pos < fuel → (chunkLoop text cs ov fuel pos idx).isSome := by
  intro fuel
  induction fuel with
  | zero => intro pos idx h; omega
  | succ f ih =>
    intro pos idx h
    rw [chunkLoop]
    by_cases hpos : pos < text.length
    · simp only [if_pos hpos]
      by_cases hstop : text.length ≤ chunkNext text cs ov pos
      · simp [hstop]
      · simp only [if_neg hstop]
        have hnext := chunkNext_ge text cs ov pos
        have := ih (chunkNext text cs ov pos)
          (if 0 < (chunkPiece text cs pos).length then idx + 1 else idx) (by omega)
        cases hc : chunkLoop text cs ov f (chunkNext text cs ov pos)
            (if 0 < (chunkPiece text cs pos).length then idx + 1 else idx) with
        | none => rw [hc] at this; simp at this
        | some l => simp
    · simp [hpos]

/-- Invariant of the chunk loop used for the coverage theorem: the loop
succeeds, every emitted chunk is a non-empty trimmed piece, the last chunk
ends at the end of the text, and if the current slice trims non-empty the
first chunk of the result starts at the current cursor. -/
theorem chunkLoop_spec (text : Str) (cs ov : Nat) (htrim : trimStr text = text)
    (hne : text ≠ []) (hcs : 1 ≤ cs) :
    ∀ fuel pos idx, pos < text.length → text.length - pos < fuel →
      ∃ l, chunkLoop text cs ov fuel pos idx = some l ∧
        (∀ c ∈ l, trimStr c.text = c.text ∧ c.text ≠ []) ∧
        (∃ lc, l.getLast? = some lc ∧ lc.endPos = text.length) ∧
        (0 < (chunkPiece text cs pos).length →
          ∃ ch rest, l = ch :: rest ∧ ch.start = pos) := by
  intro fuel
  induction fuel with
  | zero => intro pos idx hpos h; omega
  | succ f ih =>
    intro pos idx hpos h
    rw [chunkLoop]
    simp only [if_pos hpos]
    have hpieceok : ∀ c ∈ chunkHere text cs pos idx, trimStr c.text = c.text ∧ c.text ≠ [] := by
      intro c hc
      rw [chunkHere] at hc
      by_cases hemit : 0 < (chunkPiece text cs pos).length
      · simp only [if_pos hemit, List.mem_singleton] at hc
        subst hc
        refine ⟨trimStr_idem _, ?_⟩
        intro hnil
        have hnil2 : chunkPiece text cs pos = [] := hnil
        rw [hnil2] at hemit
        simp at hemit
      · simp [if_neg hemit] at hc
    by_cases hstop : text.length ≤ chunkNext text cs ov pos
    · simp only [if_pos hstop]
      have hsa := terminal_splitAt text cs ov pos hpos hcs hstop
      have hemit := chunkPiece_final text cs pos hpos hsa htrim hne
      refine ⟨chunkHere text cs pos idx, rfl, hpieceok, ?_, ?_⟩
      · rw [chunkHere, if_pos hemit]
        exact ⟨_, rfl, hsa⟩
      · intro _
        rw [chunkHere, if_pos hemit]
        exact ⟨_, _, rfl, rfl⟩
    · simp only [if_neg hstop]
      have hnext := chunkNext_ge text cs ov pos
      have hposn : chunkNext text cs ov pos < text.length := by omega
      obtain ⟨l, hl, hall, hlast, hhead⟩ := ih (chunkNext text cs ov pos)
        (if 0 < (chunkPiece text cs pos).length then idx + 1 else idx) hposn (by omega)
      rw [hl]
      refine ⟨chunkHere text cs pos idx ++ l, rfl, ?_, ?_, ?_⟩
      · intro c hc
        rcases List.mem_append.mp hc with hc | hc
        · exact hpieceok c hc
        · exact hall c hc
      · obtain ⟨lc, hlc, hlce⟩ := hlast
        refine ⟨lc, ?_, hlce⟩
        rw [List.getLast?_append_of_ne_nil]
        · exact hlc
        · intro hnil
          rw [hnil] at hlc
          simp at hlc
      · intro hemit
        rw [chunkHere, if_pos hemit]
        exact ⟨_, _, rfl, rfl⟩

-- ───────────────────────── C6 ─────────────────────────

/-- C6 (confirmed): the chunker terminates on every input — the fueled loop
always reaches a result (`text.length` iterations suffice because the cursor
advances to `max(breakpoint − overlap, cursor + 1) ≥ cursor + 1`, also when
`overlap ≥ chunkSize`) — and empty or whitespace-only text yields the empty
chunk sequence. -/
theorem chunkText_terminates (text : Str) (cs ov : Nat) :
    (∃ l, chunkTextO text cs ov = some l) ∧
    (trimStr text = [] → chunkTextO text cs ov = some []) := by
  constructor
  · rw [chunkTextO]
    by_cases h : ((trimStr text).length == 0) = true
    · exact ⟨[], by rw [if_pos h]⟩
    · rw [if_neg h]
      have hs := chunkLoop_isSome text cs ov (text.length + 1) 0 0 (by omega)
      exact Option.isSome_iff_exists.mp hs
  · intro h
    rw [chunkTextO]
    rw [if_pos (by rw [h]; rfl)]

/-- Witness for C6 on whitespace-only input. -/
theorem chunkText_terminates_witness :
    chunkTextO (str "   ") 900 150 = some [] :=
  (chunkText_terminates (str "   ") 900 150).2 (by decide)

-- ───────────────────────── C5 ─────────────────────────

/-- C5 (counterexample): with text `"\n\nHi."`, chunkSize 2 and overlap 0,
the first produced chunk starts at offset 2, not 0 (the leading all-
whitespace window is skipped); and with `"ab"` followed by eight spaces the
last chunk ends at offset 2, below 0.8 × 10. -/
theorem chunk_coverage_counterexample :
    ((chunkText (str "\n\nHi.") 2 0).head?.map (fun c => c.start) = some 2) ∧
    ((chunkText (str "ab        ") 2 0).getLast?.map (fun c => c.endPos) = some 2) ∧
    5 * 2 < 4 * (str "ab        ").length := by
  refine ⟨by decide, by decide, by decide⟩

/-- C5 (amended): for non-empty text with no leading or trailing whitespace
(`text.trim() === text`) and `chunkSize ≥ 1`, the chunk sequence starts at
offset 0, no chunk has empty trimmed text, and the last chunk ends at the
end of the text (hence at ≥ 0.8 × its length). -/
theorem chunk_coverage_amended (text : Str) (cs ov : Nat)
    (hne : text ≠ []) (htrim : trimStr text = text) (hcs : 1 ≤ cs) :
    (∃ ch rest, chunkText text cs ov = ch :: rest ∧ ch.start = 0) ∧
    (∀ c ∈ chunkText text cs ov, trimStr c.text ≠ []) ∧
    (∃ lc, (chunkText text cs ov).getLast? = some lc ∧ lc.endPos = text.length ∧
      4 * text.length ≤ 5 * lc.endPos) := by
  have hlen : 0 < text.length := by
    cases text with
    | nil => exact absurd rfl hne
    | cons c t => simp
  have hcond : ¬ (((trimStr text).length == 0) = true) := by
    rw [htrim]
    simp only [beq_iff_eq]
    omega
  have hchunk : chunkText text cs ov = (chunkLoop text cs ov (text.length + 1) 0 0).getD [] := by
    rw [chunkText, chunkTextO, if_neg hcond]
  obtain ⟨l, hl, hall, hlast, hhead⟩ :=
    chunkLoop_spec text cs ov htrim hne hcs (text.length + 1) 0 0 hlen (by omega)
  rw [hl] at hchunk
  simp only [Option.getD_some] at hchunk
  have hemit : 0 < (chunkPiece text cs 0).length := by
    obtain ⟨hsa1, hsa2⟩ := splitAtOf_bounds text cs 0 hlen hcs
    obtain ⟨c, t, htx⟩ : ∃ c t, text = c :: t := by
      cases text with
      | nil => exact absurd rfl hne
      | cons c t => exact ⟨c, t, rfl⟩
    have hc : isSpaceJS c = false := trimStr_eq_self_head text c t htrim htx
    rw [chunkPiece]
    simp only [List.drop_zero, Nat.sub_zero]
    by_contra hz
    have hznil : trimStr (text.take (splitAtOf text cs 0)) = [] := by
      cases hq : trimStr (text.take (splitAtOf text cs 0)) with
      | nil => rfl
      | cons x xs =>
        rw [hq] at hz
        simp at hz
    rw [trimStr_eq_nil_iff] at hznil
    have hcmem : c ∈ text.take (splitAtOf text cs 0) := by
      cases hsv : splitAtOf text cs 0 with
      | zero => omega
      | succ n =>
        rw [htx]
        simp
    have := hznil c hcmem
    rw [this] at hc
    simp at hc
  refine ⟨?_, ?_, ?_⟩
  · obtain ⟨ch, rest, hlr, hstart⟩ := hhead hemit
    exact ⟨ch, rest, by rw [hchunk, hlr], hstart⟩
  · intro c hc
    rw [hchunk] at hc
    obtain ⟨h1, h2⟩ := hall c hc
    rw [h1]
    exact h2
  · obtain ⟨lc, hlc, hend⟩ := hlast
    refine ⟨lc, by rw [hchunk]; exact hlc, hend, by omega⟩

/-- Witness for the amended C5 at `"Hi."` with the default parameters. -/
theorem chunk_coverage_amended_witness :
    (∃ ch rest, chunkText (str "Hi.") 900 150 = ch :: rest ∧ ch.start = 0) ∧
    (∀ c ∈ chunkText (str "Hi.") 900 150, trimStr c.text ≠ []) ∧
    (∃ lc, (chunkText (str "Hi.") 900 150).getLast? = some lc ∧
      lc.endPos = (str "Hi.").length ∧ 4 * (str "Hi.").length ≤ 5 * lc.endPos) :=
  chunk_coverage_amended (str "Hi.") 900 150 (by decide) (by decide) (by decide)

-- ───────────────────────── Cosine similarity lemmas ─────────────────────────

/-- The value of `b[term]` seen by the dot-product loop (0 when absent). -/
noncomputable def yOf (b : TFIDFVector) (t : Str) : ℝ := (vecLookup b t).getD 0

/-- Remove the first binding of `k`. -/
def eraseKey (b : TFIDFVector) (k : Str) : TFIDFVector :=
  match b with
  | [] => []
  | (k2, w) :: rest => if k2 == k then rest else (k2, w) :: eraseKey rest k

/-- Sum of the squared looked-up values over the keys of `a`. -/
noncomputable def sumY2 (a b : TFIDFVector) : ℝ :=
  (a.map (fun p => yOf b p.1 * yOf b p.1)).sum

theorem sumSq_nonneg (v : TFIDFVector) : 0 ≤ sumSq v := by
  apply List.sum_nonneg
  intro x hx
  rw [List.mem_map] at hx
  obtain ⟨p, _, hp⟩ := hx
  rw [← hp]
  exact mul_self_nonneg _

theorem vecLookup_mem (b : TFIDFVector) (k : Str) (w : ℝ) (h : vecLookup b k = some w) :
    (k, w) ∈ b := by
  unfold vecLookup at h
  cases hf : b.find? (fun p => p.1 == k) with
  | none => rw [hf] at h; simp at h
  | some p =>
    rw [hf] at h
    have hmem := List.mem_of_find?_eq_some hf
    have hkey := List.find?_some hf
    obtain ⟨p1, p2⟩ := p
    simp at h
    simp only [beq_iff_eq] at hkey
    subst_vars
    exact hmem

/-- Removing the `t`-binding accounts for its square inside `sumSq` and
leaves every other lookup unchanged. -/
theorem eraseKey_spec (b : TFIDFVector) (t : Str) :
    yOf b t * yOf b t + sumSq (eraseKey b t) ≤ sumSq b ∧
    (∀ u, u ≠ t → vecLookup (eraseKey b t) u = vecLookup b u) := by
  induction b with
  | nil =>
    constructor
    · show (0 : ℝ) * 0 + 0 ≤ 0
      norm_num
    · intro u _
      rfl
  | cons p rest ih =>
    obtain ⟨k2, w⟩ := p
    by_cases hk : (k2 == t) = true
    · constructor
      · have hy : yOf ((k2, w) :: rest) t = w := by
          simp [yOf, vecLookup, List.find?, hk]
        rw [hy]
        have he : eraseKey ((k2, w) :: rest) t = rest := by
          rw [eraseKey, if_pos hk]
        rw [he]
        have hs : sumSq ((k2, w) :: rest) = w * w + sumSq rest := by
          simp [sumSq]
        rw [hs]
      · intro u hu
        have he : eraseKey ((k2, w) :: rest) t = rest := by
          rw [eraseKey, if_pos hk]
        rw [he]
        have hne : (k2 == u) = false := by
          rw [beq_eq_false_iff_ne]
          intro h
          apply hu
          rw [← h]
          exact beq_iff_eq.mp hk
        simp [vecLookup, List.find?, hne]
    · have he : eraseKey ((k2, w) :: rest) t = (k2, w) :: eraseKey rest t := by
        rw [eraseKey, if_neg (by simpa using hk)]
      constructor
      · have hy : yOf ((k2, w) :: rest) t = yOf rest t := by
          simp [yOf, vecLookup, List.find?, hk]
        rw [hy, he]
        have hs1 : sumSq ((k2, w) :: rest) = w * w + sumSq rest := by simp [sumSq]
        have hs2 : sumSq ((k2, w) :: eraseKey rest t) = w * w + sumSq (eraseKey rest t) := by
          simp [sumSq]
        rw [hs1, hs2]
        have := ih.1
        nlinarith [mul_self_nonneg w]
      · intro u hu
        rw [he]
        by_cases hku : (k2 == u) = true
        · simp [vecLookup, List.find?, hku]
        · simp only [vecLookup, List.find?, hku]
          exact ih.2 u hu

/-- `sumY2` only depends on the lookups of the keys of `a`. -/
theorem sumY2_congr (a : TFIDFVector) (b1 b2 : TFIDFVector)
    (h : ∀ p ∈ a, vecLookup b1 p.1 = vecLookup b2 p.1) : sumY2 a b1 = sumY2 a b2 := by
  unfold sumY2
  congr 1
  apply List.map_congr_left
  intro p hp
  rw [yOf, yOf, h p hp]

/-- With distinct keys, the looked-up squares are bounded by the stored
squares (each key of `a` hits a different entry of `b`). -/
theorem sumY2_le_sumSq (a b : TFIDFVector) (hnd : (a.map Prod.fst).Nodup) :
    sumY2 a b ≤ sumSq b := by
  induction a generalizing b with
  | nil =>
    show (0 : ℝ) ≤ sumSq b
    exact sumSq_nonneg b
  | cons p as ih =>
    obtain ⟨t, w⟩ := p
    rw [List.map_cons, List.nodup_cons] at hnd
    obtain ⟨hnot, hnd2⟩ := hnd
    have hstep : sumY2 ((t, w) :: as) b = yOf b t * yOf b t + sumY2 as b := by
      simp [sumY2]
    rw [hstep]
    obtain ⟨hsq, hlook⟩ := eraseKey_spec b t
    have hcong : sumY2 as b = sumY2 as (eraseKey b t) := by
      apply sumY2_congr
      intro q hq
      have hqt : q.1 ≠ t := by
        intro hqt
        apply hnot
        have hm : q.1 ∈ as.map Prod.fst := List.mem_map_of_mem Prod.fst hq
        rwa [hqt] at hm
      exact (hlook q.1 hqt).symm
    rw [hcong]
    have := ih (eraseKey b t) hnd2
    linarith

/-- The dot product accumulated by the loop as a sum over paired values. -/
theorem dotProd_eq (a b : TFIDFVector) :
    dotProd a b = (a.map (fun p => p.2 * yOf b p.1)).sum := by
  unfold dotProd
  congr 1
  apply List.map_congr_left
  intro p _
  cases h : vecLookup b p.1 with
  | none => simp [yOf, h]
  | some w => simp [yOf, h]

/-- Cauchy–Schwarz for lists of real pairs. -/
theorem cauchy_list (l : List (ℝ × ℝ)) :
    ((l.map (fun p => p.1 * p.2)).sum) ^ 2 ≤
      ((l.map (fun p => p.1 * p.1)).sum) * ((l.map (fun p => p.2 * p.2)).sum) := by
  induction l with
  | nil => simp
  | cons p l ih =>
    obtain ⟨x, y⟩ := p
    simp only [List.map_cons, List.sum_cons]
    have hA : 0 ≤ (l.map (fun p => p.1 * p.1)).sum := by
      apply List.sum_nonneg
      intro q hq
      rw [List.mem_map] at hq
      obtain ⟨r, _, hr⟩ := hq
      rw [← hr]
      exact mul_self_nonneg _
    have hB : 0 ≤ (l.map (fun p => p.2 * p.2)).sum := by
      apply List.sum_nonneg
      intro q hq
      rw [List.mem_map] at hq
      obtain ⟨r, _, hr⟩ := hq
      rw [← hr]
      exact mul_self_nonneg _
    set D := (l.map (fun p => p.1 * p.2)).sum with hD
    set A := (l.map (fun p => p.1 * p.1)).sum with hA2
    set B := (l.map (fun p => p.2 * p.2)).sum with hB2
    have hIH2 : 0 ≤ A * B - D ^ 2 := by linarith
    rcases eq_or_lt_of_le hA with hA0 | hApos
    · have hDsq : D ^ 2 = 0 := le_antisymm (by nlinarith) (sq_nonneg D)
      have hD0 : D = 0 := by
        exact (pow_eq_zero_iff two_ne_zero).mp hDsq
      rw [← hA0, hD0]
      nlinarith [mul_nonneg (mul_self_nonneg x) hB]
    · have key : A * ((x * x + A) * (y * y + B) - (x * y + D) ^ 2) =
          (A * y - D * x) ^ 2 + x ^ 2 * (A * B - D ^ 2) + A * (A * B - D ^ 2) := by
        ring
      nlinarith [key, sq_nonneg (A * y - D * x), mul_nonneg (sq_nonneg x) hIH2,
        mul_nonneg hA hIH2, hApos]

-- ───────────────────────── C7 ─────────────────────────

/-- C7 (confirmed): for term vectors with non-negative weights (and, as for
any JS object, distinct keys in `a`), `cosineSimilarity(a, b)` lies in
`[0, 1]`, and it is exactly 0 whenever either squared norm is 0 — the zero
denominator is guarded, never divided by. -/
theorem cosineSimilarity_range (a b : TFIDFVector)
    (ha : ∀ p ∈ a, 0 ≤ p.2) (hb : ∀ p ∈ b, 0 ≤ p.2)
    (hnd : (a.map Prod.fst).Nodup) :
    0 ≤ cosineSimilarity a b ∧ cosineSimilarity a b ≤ 1 ∧
      ((sumSq a = 0 ∨ sumSq b = 0) → cosineSimilarity a b = 0) := by
  have hA := sumSq_nonneg a
  have hB := sumSq_nonneg b
  by_cases hd : Real.sqrt (sumSq a) * Real.sqrt (sumSq b) = 0
  · rw [cosineSimilarity, if_pos hd]
    exact ⟨le_refl 0, by norm_num, fun _ => rfl⟩
  · rw [cosineSimilarity, if_neg hd]
    have hdpos : 0 < Real.sqrt (sumSq a) * Real.sqrt (sumSq b) :=
      lt_of_le_of_ne (mul_nonneg (Real.sqrt_nonneg _) (Real.sqrt_nonneg _)) (Ne.symm hd)
    have hy0 : ∀ t, 0 ≤ yOf b t := by
      intro t
      rw [yOf]
      cases h : vecLookup b t with
      | none => simp
      | some w =>
        simp only [Option.getD_some]
        exact hb (t, w) (vecLookup_mem b t w h)
    have hdot : 0 ≤ dotProd a b := by
      rw [dotProd_eq]
      apply List.sum_nonneg
      intro x hx
      rw [List.mem_map] at hx
      obtain ⟨p, hp, hpx⟩ := hx
      rw [← hpx]
      exact mul_nonneg (ha p hp) (hy0 p.1)
    have hcs : (dotProd a b) ^ 2 ≤ sumSq a * sumSq b := by
      have h1 := cauchy_list (a.map (fun p => (p.2, yOf b p.1)))
      rw [List.map_map, List.map_map, List.map_map] at h1
      have e1 : ((a.map ((fun p : ℝ × ℝ => p.1 * p.2) ∘ fun p : Str × ℝ =>
          (p.2, yOf b p.1))).sum) = dotProd a b := by
        rw [dotProd_eq]
        rfl
      have e2 : ((a.map ((fun p : ℝ × ℝ => p.1 * p.1) ∘ fun p : Str × ℝ =>
          (p.2, yOf b p.1))).sum) = sumSq a := by
        rw [sumSq]
        rfl
      have e3 : ((a.map ((fun p : ℝ × ℝ => p.2 * p.2) ∘ fun p : Str × ℝ =>
          (p.2, yOf b p.1))).sum) = sumY2 a b := by
        rw [sumY2]
        rfl
      rw [e1, e2, e3] at h1
      calc (dotProd a b) ^ 2 ≤ sumSq a * sumY2 a b := h1
        _ ≤ sumSq a * sumSq b := by
            apply mul_le_mul_of_nonneg_left (sumY2_le_sumSq a b hnd) hA
    refine ⟨div_nonneg hdot (le_of_lt hdpos), ?_, ?_⟩
    · rw [div_le_one hdpos]
      calc dotProd a b ≤ Real.sqrt (sumSq a * sumSq b) := by
            rw [Real.le_sqrt hdot (mul_nonneg hA hB)]
            exact hcs
        _ = Real.sqrt (sumSq a) * Real.sqrt (sumSq b) := Real.sqrt_mul hA _
    · intro h0
      exfalso
      apply hd
      rcases h0 with h0 | h0 <;> rw [h0]
      · rw [Real.sqrt_zero, zero_mul]
      · rw [Real.sqrt_zero, mul_zero]

/-- Witness for C7 at the empty vectors (both norms 0, similarity 0). -/
theorem cosineSimilarity_range_witness :
    0 ≤ cosineSimilarity [] [] ∧ cosineSimilarity [] [] ≤ 1 ∧
      cosineSimilarity [] [] = 0 := by
  have h := cosineSimilarity_range [] [] (by intro p hp; simp at hp)
    (by intro p hp; simp at hp) (by simp)
  exact ⟨h.1, h.2.1, h.2.2 (Or.inl rfl)⟩

-- ───────────────────────── C8 ─────────────────────────

/-- A stored row whose owner is `"acme"`. -/
noncomputable def rowAcme : JoinedRow :=
  { chunkId := str "c1", docId := str "d1", chunkIndex := 0, text := str "hello",
    vector := [(str "hello", 1)], payerName := some (str "acme"),
    docType := str "policy", tags := [], createdAt := str "t0" }

/-- A filter whose owner key is the empty string (JS-falsy). -/
def emptyPayerFilter : SearchFilters :=
  { payerName := some [], docType := none, tags := none }

/-- C8 (counterexample): with the owner-key filter set to the empty string,
the `if (filters.payerName)` truthiness check skips the SQL condition
entirely, so a chunk owned by `"acme"` is selected and returned even though
its owner neither equals the filter nor is unset. -/
theorem search_empty_filter_counterexample :
    (search [rowAcme] (str "q") emptyPayerFilter 8).map (fun c => c.meta.payerName) =
      [some (str "acme")] ∧ str "acme" ≠ ([] : Str) := by
  constructor
  · have hmatch : rowMatches emptyPayerFilter rowAcme = true := by decide
    have hcands : searchCands [rowAcme] emptyPayerFilter = [rowAcme] := by
      rw [searchCands]
      rw [List.filter_cons_of_pos hmatch]
      rfl
    rw [search, hcands]
    rw [if_neg (by decide)]
    have hscored : searchScored [rowAcme] (str "q") emptyPayerFilter =
        [(rowAcme, tagBoost emptyPayerFilter rowAcme (scoreQuery (str "q") rowAcme.vector
          (computeIDF ((searchCands [rowAcme] emptyPayerFilter).map (fun r => r.vector)))))] := by
      rw [searchScored, hcands]
      rfl
    rw [hscored, List.mergeSort_singleton]
    rfl
  · decide

/-- C8 (amended): when the candidate set is empty, `search` returns the
empty list (no error); and when the owner-key filter is a *non-empty*
string, every returned chunk corresponds to a stored row that passed the
filter and whose owner either equals the filter value or is unset.
Empty-string filters are treated as absent (JS truthiness). -/
theorem search_filter_amended (rows : List JoinedRow) (query : Str)
    (f : SearchFilters) (topK : Nat) :
    (searchCands rows f = [] → search rows query f topK = []) ∧
    (∀ p0, f.payerName = some p0 → p0 ≠ [] →
      ∀ c ∈ search rows query f topK, ∃ row ∈ rows, rowMatches f row = true ∧
        c.chunkId = row.chunkId ∧
        (row.payerName = none ∨ row.payerName = some p0)) := by
  constructor
  · intro h
    rw [search, if_pos (by rw [h]; rfl)]
  · intro p0 hp0 hp0ne c hc
    rw [search] at hc
    by_cases hnil : ((searchCands rows f).length == 0) = true
    · rw [if_pos hnil] at hc
      simp at hc
    · rw [if_neg hnil] at hc
      rw [List.mem_map] at hc
      obtain ⟨pr, hpr, hprc⟩ := hc
      have hpr2 : pr ∈ (searchScored rows query f).mergeSort
          (fun a b => decide (b.2 ≤ a.2)) := List.mem_of_mem_take hpr
      rw [List.mem_mergeSort] at hpr2
      rw [searchScored, List.mem_map] at hpr2
      obtain ⟨row, hrow, hrowp⟩ := hpr2
      rw [searchCands, List.mem_filter] at hrow
      obtain ⟨hrowmem, hrowmatch⟩ := hrow
      refine ⟨row, hrowmem, hrowmatch, ?_, ?_⟩
      · rw [← hprc, ← hrowp]
        rfl
      · rw [rowMatches, hp0] at hrowmatch
        rw [Bool.and_eq_true] at hrowmatch
        obtain ⟨hpay, _⟩ := hrowmatch
        have hlen : (p0.length == 0) = false := by
          cases p0 with
          | nil => exact absurd rfl hp0ne
          | cons x xs => rfl
        have hpay2 : (if (p0.length == 0) = true then true
            else row.payerName.isNone || row.payerName == some p0) = true := hpay
        rw [if_neg (by rw [hlen]; exact Bool.false_ne_true)] at hpay2
        have hpay := hpay2
        rw [Bool.or_eq_true] at hpay
        rcases hpay with hpay | hpay
        · left
          cases hk : row.payerName with
          | none => rfl
          | some v => rw [hk] at hpay; simp at hpay
        · right
          rw [beq_iff_eq] at hpay
          exact hpay

/-- Witness for the amended C8: searching an empty store returns `[]`. -/
theorem search_filter_amended_witness :
    search [] (str "q") emptyPayerFilter 8 = [] :=
  (search_filter_amended [] (str "q") emptyPayerFilter 8).1 rfl

-- ───────────────────────── Aggregator lemmas ─────────────────────────

/-- Case analysis of a `Map.set`-style merge step: either the key is new
and the pair is appended, or the list splits at the unique existing entry,
which is replaced exactly when the new score is strictly greater. -/
theorem mergeChunk_cases (seen : List (Str × RetrievedChunk)) (c : RetrievedChunk) :
    ((∀ kv ∈ seen, kv.1 ≠ c.chunkId) ∧ mergeChunk seen c = seen ++ [(c.chunkId, c)]) ∨
    (∃ s1 e s2, seen = s1 ++ (c.chunkId, e) :: s2 ∧ (∀ kv ∈ s1, kv.1 ≠ c.chunkId) ∧
      mergeChunk seen c =
        s1 ++ (c.chunkId, if e.score < c.score then c else e) :: s2) := by
  induction seen with
  | nil =>
    left
    constructor
    · intro kv hkv
      simp at hkv
    · rfl
  | cons p rest ih =>
    obtain ⟨k2, e2⟩ := p
    by_cases hk : (k2 == c.chunkId) = true
    · right
      have hkeq : k2 = c.chunkId := beq_iff_eq.mp hk
      refine ⟨[], e2, rest, by rw [hkeq]; rfl, by intro kv hkv; simp at hkv, ?_⟩
      rw [mergeChunk]
      subst hkeq
      by_cases hsc : e2.score < c.score
      · rw [if_pos hk, if_pos hsc, if_pos hsc]
        rfl
      · rw [if_pos hk, if_neg hsc, if_neg hsc]
        rfl
    · have hkne : k2 ≠ c.chunkId := by
        intro h
        rw [h] at hk
        simp at hk
      have hme : mergeChunk ((k2, e2) :: rest) c = (k2, e2) :: mergeChunk rest c := by
        rw [mergeChunk, if_neg (by rw [beq_eq_false_iff_ne.mpr hkne]; exact Bool.false_ne_true)]
      rcases ih with ⟨hnone, heq⟩ | ⟨s1, e, s2, hsplit, hs1, heq⟩
      · left
        constructor
        · intro kv hkv
          rcases List.mem_cons.mp hkv with hkv | hkv
          · rw [hkv]
            exact hkne
          · exact hnone kv hkv
        · rw [hme, heq]
          rfl
      · right
        refine ⟨(k2, e2) :: s1, e, s2, by rw [hsplit]; rfl, ?_, ?_⟩
        · intro kv hkv
          rcases List.mem_cons.mp hkv with hkv | hkv
          · rw [hkv]
            exact hkne
          · exact hs1 kv hkv
        · rw [hme, heq]
          rfl

/-- The invariant carried by the dedup map: distinct keys; every stored
chunk has its key as identity, appears in the processed stream, and
dominates every processed chunk with the same identity; every processed
identity has an entry. -/
def MergeInv (seen : List (Str × RetrievedChunk)) (processed : List RetrievedChunk) : Prop :=
  (seen.map Prod.fst).Nodup ∧
  (∀ kv ∈ seen, kv.2.chunkId = kv.1 ∧ kv.2 ∈ processed ∧
    ∀ x ∈ processed, x.chunkId = kv.1 → x.score ≤ kv.2.score) ∧
  (∀ x ∈ processed, x.chunkId ∈ seen.map Prod.fst)

/-- One merge step preserves the dedup-map invariant. -/
theorem mergeInv_step (seen : List (Str × RetrievedChunk)) (processed : List RetrievedChunk)
    (c : RetrievedChunk) (h : MergeInv seen processed) :
    MergeInv (mergeChunk seen c) (processed ++ [c]) := by
  obtain ⟨hnd, hsound, hcomp⟩ := h
  rcases mergeChunk_cases seen c with ⟨hnone, heq⟩ | ⟨s1, e, s2, hsplit, hs1, heq⟩
  · rw [heq]
    refine ⟨?_, ?_, ?_⟩
    · rw [List.map_append]
      rw [List.nodup_append]
      refine ⟨hnd, by simp, ?_⟩
      intro k hk1 hk2
      simp only [List.map_cons, List.map_nil, List.mem_singleton] at hk2
      rw [List.mem_map] at hk1
      obtain ⟨kv, hkv, hkvk⟩ := hk1
      exact hnone kv hkv (by rw [hkvk, hk2])
    · intro kv hkv
      rcases List.mem_append.mp hkv with hkv | hkv
      · obtain ⟨h1, h2, h3⟩ := hsound kv hkv
        refine ⟨h1, List.mem_append_left _ h2, ?_⟩
        intro x hx hxid
        rcases List.mem_append.mp hx with hx | hx
        · exact h3 x hx hxid
        · rw [List.mem_singleton] at hx
          exfalso
          apply hnone kv hkv
          rw [← hxid, hx]
      · rw [List.mem_singleton] at hkv
        subst hkv
        refine ⟨rfl, List.mem_append_right _ (by simp), ?_⟩
        intro x hx hxid
        rcases List.mem_append.mp hx with hx | hx
        · exfalso
          have := hcomp x hx
          rw [List.mem_map] at this
          obtain ⟨kv2, hkv2, hkv2k⟩ := this
          exact hnone kv2 hkv2 (by rw [hkv2k, hxid])
        · rw [List.mem_singleton] at hx
          rw [hx]
    · intro x hx
      rcases List.mem_append.mp hx with hx | hx
      · have := hcomp x hx
        rw [List.map_append]
        exact List.mem_append_left _ this
      · rw [List.mem_singleton] at hx
        subst hx
        rw [List.map_append]
        apply List.mem_append_right
        simp
  · have hkeys : (mergeChunk seen c).map Prod.fst = seen.map Prod.fst := by
      rw [heq, hsplit]
      simp
    have hk_not_s1 : c.chunkId ∉ s1.map Prod.fst := by
      intro hmem
      rw [List.mem_map] at hmem
      obtain ⟨kv, hkv, hkvk⟩ := hmem
      exact hs1 kv hkv hkvk
    have hk_not_s2 : c.chunkId ∉ s2.map Prod.fst := by
      have := hnd
      rw [hsplit, List.map_append, List.map_cons] at this
      have h2 := (List.nodup_append.mp this).2.1
      rw [List.nodup_cons] at h2
      exact h2.1
    refine ⟨by rw [hkeys]; exact hnd, ?_, ?_⟩
    · intro kv hkv
      rw [heq] at hkv
      have hsound2 : ∀ kv2 ∈ seen, kv2.2.chunkId = kv2.1 ∧ kv2.2 ∈ processed ∧
          ∀ x ∈ processed, x.chunkId = kv2.1 → x.score ≤ kv2.2.score := hsound
      rcases List.mem_append.mp hkv with hkv | hkv
      · obtain ⟨h1, h2, h3⟩ := hsound2 kv (by rw [hsplit]; exact List.mem_append_left _ hkv)
        refine ⟨h1, List.mem_append_left _ h2, ?_⟩
        intro x hx hxid
        rcases List.mem_append.mp hx with hx | hx
        · exact h3 x hx hxid
        · rw [List.mem_singleton] at hx
          exfalso
          apply hs1 kv hkv
          rw [← hxid, hx]
      · rcases List.mem_cons.mp hkv with hkv | hkv
        · subst hkv
          have hesound := hsound2 (c.chunkId, e)
            (by rw [hsplit]; exact List.mem_append_right _ (by simp))
          obtain ⟨he1, he2, he3⟩ := hesound
          by_cases hsc : e.score < c.score
          · rw [if_pos hsc]
            refine ⟨rfl, List.mem_append_right _ (by simp), ?_⟩
            intro x hx hxid
            rcases List.mem_append.mp hx with hx | hx
            · have := he3 x hx hxid
              simp only at this ⊢
              linarith
            · rw [List.mem_singleton] at hx
              rw [hx]
          · rw [if_neg hsc]
            refine ⟨he1, List.mem_append_left _ he2, ?_⟩
            intro x hx hxid
            rcases List.mem_append.mp hx with hx | hx
            · exact he3 x hx hxid
            · rw [List.mem_singleton] at hx
              rw [hx]
              exact not_lt.mp hsc
        · obtain ⟨h1, h2, h3⟩ := hsound2 kv
            (by rw [hsplit]; exact List.mem_append_right _ (List.mem_cons_of_mem _ hkv))
          refine ⟨h1, List.mem_append_left _ h2, ?_⟩
          intro x hx hxid
          rcases List.mem_append.mp hx with hx | hx
          · exact h3 x hx hxid
          · rw [List.mem_singleton] at hx
            exfalso
            apply hk_not_s2
            rw [← hx, hxid]
            exact List.mem_map_of_mem Prod.fst hkv
    · intro x hx
      rw [hkeys]
      rcases List.mem_append.mp hx with hx | hx
      · exact hcomp x hx
      · rw [List.mem_singleton] at hx
        rw [hx, hsplit, List.map_append, List.map_cons]
        exact List.mem_append_right _ (List.mem_cons_self _ _)

/-- Folding merge steps over a chunk stream maintains the invariant. -/
theorem mergeInv_foldl (l : List RetrievedChunk) :
    ∀ (seen : List (Str × RetrievedChunk)) (processed : List RetrievedChunk),
      MergeInv seen processed → MergeInv (l.foldl mergeChunk seen) (processed ++ l) := by
  induction l with
  | nil =>
    intro seen processed h
    simpa using h
  | cons c rest ih =>
    intro seen processed h
    have h1 := mergeInv_step seen processed c h
    have h2 := ih (mergeChunk seen c) (processed ++ [c]) h1
    rw [List.foldl_cons]
    have : processed ++ c :: rest = (processed ++ [c]) ++ rest := by simp
    rw [this]
    exact h2

/-- The query loop of `retrieveForCase` equals a single fold of the merge
step over the concatenated results of the non-blank queries. -/
theorem queryFold_eq_flat (qs : List (Str × SearchFilters))
    (g : Str × SearchFilters → List RetrievedChunk) :
    ∀ acc, qs.foldl (fun acc qf =>
        if (trimStr qf.1).length == 0 then acc else (g qf).foldl mergeChunk acc) acc =
      ((qs.filter (fun qf => !((trimStr qf.1).length == 0))).flatMap g).foldl
        mergeChunk acc := by
  induction qs with
  | nil => intro acc; rfl
  | cons q rest ih =>
    intro acc
    rw [List.foldl_cons]
    by_cases hq : ((trimStr q.1).length == 0) = true
    · rw [if_pos hq]
      rw [List.filter_cons_of_neg (by rw [hq]; decide)]
      exact ih acc
    · rw [if_neg hq]
      rw [List.filter_cons_of_pos (by rw [Bool.not_eq_true']; exact Bool.not_eq_true _ ▸ (Bool.eq_false_iff.mpr hq))]
      rw [List.flatMap_cons, List.foldl_append]
      exact ih _

/-- The concatenated result stream of the non-blank derived queries, each
run with per-query K = 5. -/
noncomputable def aggregatedStream (rows : List JoinedRow) (dc : DenialCase) :
    List RetrievedChunk :=
  ((derivedQueries dc).filter (fun qf => !((trimStr qf.1).length == 0))).flatMap
    (fun qf => search rows qf.1 qf.2 5)

-- ───────────────────────── C9 ─────────────────────────

/-- C9 (confirmed): `retrieveForCase` (per-query K = 5, cap 15) skips blank
queries, and its output has pairwise-distinct chunk identities, at most 15
items, descending scores, and each returned chunk is one of the retrieved
chunks whose score dominates every chunk with the same identity retrieved
by any query. -/
theorem retrieveForCase_merge (rows : List JoinedRow) (dc : DenialCase) :
    ((retrieveForCase rows dc 5 15).map (fun c => c.chunkId)).Nodup ∧
    (retrieveForCase rows dc 5 15).length ≤ 15 ∧
    (∀ c ∈ retrieveForCase rows dc 5 15, c ∈ aggregatedStream rows dc ∧
      ∀ x ∈ aggregatedStream rows dc, x.chunkId = c.chunkId → x.score ≤ c.score) ∧
    (retrieveForCase rows dc 5 15).Pairwise (fun a b => b.score ≤ a.score) := by
  have hflat : mergedMap rows dc 5 = (aggregatedStream rows dc).foldl mergeChunk [] := by
    rw [mergedMap, aggregatedStream]
    exact queryFold_eq_flat (derivedQueries dc) (fun qf => search rows qf.1 qf.2 5) []
  have hbase : MergeInv [] [] := by
    refine ⟨by simp, ?_, ?_⟩
    · intro kv hkv
      simp at hkv
    · intro x hx
      simp at hx
  have hinv : MergeInv (mergedMap rows dc 5) (aggregatedStream rows dc) := by
    rw [hflat]
    have := mergeInv_foldl (aggregatedStream rows dc) [] [] hbase
    simpa using this
  obtain ⟨hnd, hsound, _⟩ := hinv
  have hvmap : ((mergedMap rows dc 5).map (fun p => p.2)).map (fun c => c.chunkId) =
      (mergedMap rows dc 5).map Prod.fst := by
    rw [List.map_map]
    apply List.map_congr_left
    intro kv hkv
    exact (hsound kv hkv).1
  have hperm : List.Perm
      (((mergedMap rows dc 5).map (fun p => p.2)).mergeSort
        (fun a b => decide (b.score ≤ a.score)))
      ((mergedMap rows dc 5).map (fun p => p.2)) :=
    List.mergeSort_perm _ _
  refine ⟨?_, ?_, ?_, ?_⟩
  · rw [retrieveForCase, List.map_take]
    apply List.Nodup.sublist (List.take_sublist _ _)
    apply (List.Perm.nodup_iff (hperm.map (fun c => c.chunkId))).mpr
    rw [hvmap]
    exact hnd
  · rw [retrieveForCase]
    exact List.length_take_le _ _
  · intro c hc
    rw [retrieveForCase] at hc
    have hc2 := List.mem_of_mem_take hc
    rw [List.mem_mergeSort, List.mem_map] at hc2
    obtain ⟨kv, hkv, hkvc⟩ := hc2
    obtain ⟨h1, h2, h3⟩ := hsound kv hkv
    constructor
    · rw [← hkvc]
      exact h2
    · intro x hx hxid
      have hxk : x.chunkId = kv.1 := by
        rw [hxid, ← hkvc]
        exact h1
      have := h3 x hx hxk
      rw [← hkvc]
      exact this
  · have hsorted := @List.sorted_mergeSort RetrievedChunk
      (fun (a b : RetrievedChunk) => decide (b.score ≤ a.score))
      (fun a b c h1 h2 => decide_eq_true
        (le_trans (of_decide_eq_true h2) (of_decide_eq_true h1)))
      (fun a b => by
        simp only [Bool.or_eq_true, decide_eq_true_eq]
        exact le_total b.score a.score)
      ((mergedMap rows dc 5).map (fun p => p.2))
    rw [retrieveForCase]
    apply List.Pairwise.sublist (List.take_sublist _ _)
    exact hsorted.imp (fun h => of_decide_eq_true h)

/-- Witness for C9 on an empty store and a trivial case record (all
searches return empty, so the aggregate is empty). -/
noncomputable def emptyCase : DenialCase :=
  { caseId := str "k",
    payerName := { value := none, confidence := 0, spans := [] },
    denialCategory := { value := none, confidence := 0, spans := [] },
    services := { value := none, confidence := 0, spans := [] },
    policyReferences := { value := none, confidence := 0, spans := [] },
    providerName := { value := none, confidence := 0, spans := [] } }

theorem retrieveForCase_merge_witness :
    ((retrieveForCase [] emptyCase 5 15).map (fun c => c.chunkId)).Nodup ∧
    (retrieveForCase [] emptyCase 5 15).length ≤ 15 ∧
    (∀ c ∈ retrieveForCase [] emptyCase 5 15, c ∈ aggregatedStream [] emptyCase ∧
      ∀ x ∈ aggregatedStream [] emptyCase, x.chunkId = c.chunkId → x.score ≤ c.score) ∧
    (retrieveForCase [] emptyCase 5 15).Pairwise (fun a b => b.score ≤ a.score) :=
  retrieveForCase_merge [] emptyCase

-- ───────────────────────── Substring lemmas ─────────────────────────

theorem containsSub_iff_isInfix (h n : Str) : containsSub h n = true ↔ n <:+: h := by
  induction h with
  | nil =>
    rw [containsSub]
    constructor
    · intro hp
      by_cases hn : n.isPrefixOf ([] : Str)
      · rw [List.isPrefixOf_iff_prefix] at hn
        exact hn.isInfix
      · rw [if_neg hn] at hp
        simp at hp
    · intro hi
      have := List.eq_nil_of_infix_nil hi
      rw [this]
      rfl
  | cons c t ih =>
    rw [containsSub]
    by_cases hn : n.isPrefixOf (c :: t)
    · rw [if_pos hn]
      simp only [true_iff]
      exact (List.isPrefixOf_iff_prefix.mp hn).isInfix
    · rw [if_neg hn]
      rw [ih]
      constructor
      · intro hi
        exact hi.trans (List.infix_cons (List.infix_refl t))
      · intro hi
        rcases List.infix_cons_iff.mp hi with hp | hi2
        · exact absurd (List.isPrefixOf_iff_prefix.mpr hp) hn
        · exact hi2

theorem indexOfSub_prefix : ∀ (h n : Str) (i : Nat), indexOfSub h n = some i →
    n.isPrefixOf (h.drop i) = true := by
  intro h
  induction h with
  | nil =>
    intro n i hx
    rw [indexOfSub] at hx
    by_cases hp : n.isPrefixOf ([] : Str)
    · rw [if_pos hp] at hx
      cases hx
      exact hp
    · rw [if_neg hp] at hx
      cases hx
  | cons c t ih =>
    intro n i hx
    rw [indexOfSub] at hx
    by_cases hp : n.isPrefixOf (c :: t)
    · rw [if_pos hp] at hx
      cases hx
      exact hp
    · rw [if_neg hp] at hx
      simp only [Option.map_eq_some'] at hx
      obtain ⟨j, hj, rfl⟩ := hx
      simpa using ih n j hj

theorem indexOfSub_min : ∀ (h n : Str) (i : Nat), indexOfSub h n = some i →
    ∀ j, j < i → n.isPrefixOf (h.drop j) = false := by
  intro h
  induction h with
  | nil =>
    intro n i hx j hj
    rw [indexOfSub] at hx
    by_cases hp : n.isPrefixOf ([] : Str)
    · rw [if_pos hp] at hx
      cases hx
      omega
    · rw [if_neg hp] at hx
      cases hx
  | cons c t ih =>
    intro n i hx j hj
    rw [indexOfSub] at hx
    by_cases hp : n.isPrefixOf (c :: t)
    · rw [if_pos hp] at hx
      cases hx
      omega
    · rw [if_neg hp] at hx
      simp only [Option.map_eq_some'] at hx
      obtain ⟨k, hk, rfl⟩ := hx
      cases j with
      | zero =>
        simp only [List.drop_zero]
        exact Bool.eq_false_iff.mpr hp
      | succ j' => simpa using ih n k hk j' (by omega)

theorem indexOfSub_split (h n : Str) (i : Nat) (hx : indexOfSub h n = some i) :
    h = h.take i ++ n ++ h.drop (i + n.length) := by
  have hp := indexOfSub_prefix h n i hx
  rw [List.isPrefixOf_iff_prefix] at hp
  obtain ⟨rest, hrest⟩ := hp
  have hdrop : h.drop (i + n.length) = rest := by
    have h2 : (h.drop i).drop n.length = rest := by
      rw [← hrest]
      simp
    rw [← h2, List.drop_drop]
  rw [hdrop]
  conv_lhs => rw [← List.take_append_drop i h]
  rw [← hrest]
  simp

theorem containsSub_eq_isSome : ∀ (h n : Str), containsSub h n = (indexOfSub h n).isSome := by
  intro h
  induction h with
  | nil =>
    intro n
    rw [containsSub, indexOfSub]
    by_cases hp : n.isPrefixOf ([] : Str)
    · rw [if_pos hp, if_pos hp]
      rfl
    · rw [if_neg hp, if_neg hp]
      rfl
  | cons c t ih =>
    intro n
    rw [containsSub, indexOfSub]
    by_cases hp : n.isPrefixOf (c :: t)
    · rw [if_pos hp, if_pos hp]
      rfl
    · rw [if_neg hp, if_neg hp]
      rw [ih n]
      cases indexOfSub t n <;> rfl

theorem substJS_id (m b a : Str) : ∀ (r : Str), noSpecialsB r = true → substJS m b a r = r := by
  intro r
  induction r using noSpecialsB.induct with
  | case1 c t hc =>
    intro h
    rw [noSpecialsB, if_pos hc] at h
    cases h
  | case2 c t hc ih =>
    intro h
    rw [noSpecialsB, if_neg hc] at h
    rw [substJS.eq_def]
    split
    · rename_i heq
      injection heq with _ heq2
      injection heq2 with hc2 _
      rw [hc2] at hc
      simp at hc
    · rename_i heq
      injection heq with _ heq2
      injection heq2 with hc2 _
      rw [hc2] at hc
      simp at hc
    · rename_i heq
      injection heq with _ heq2
      injection heq2 with hc2 _
      rw [hc2] at hc
      simp at hc
    · rename_i heq
      injection heq with _ heq2
      injection heq2 with hc2 _
      rw [hc2] at hc
      simp at hc
    · rename_i c' t' heq
      injection heq with h1 h2
      rw [← h1, ← h2] at *
      rw [ih h]
    · rename_i heq
      cases heq
  | case3 x t hshape ih =>
    intro h
    rw [noSpecialsB] at h
    case x_1 => exact hshape
    rw [substJS.eq_def]
    split
    · rename_i t' heq
      injection heq with h1 h2
      exact (hshape '$' t' h1 h2).elim
    · rename_i t' heq
      injection heq with h1 h2
      exact (hshape '&' t' h1 h2).elim
    · rename_i t' heq
      injection heq with h1 h2
      exact (hshape '`' t' h1 h2).elim
    · rename_i t' heq
      injection heq with h1 h2
      exact (hshape '\'' t' h1 h2).elim
    · rename_i c' t' heq
      injection heq with h1 h2
      rw [← h1, ← h2] at *
      rw [ih h]
    · rename_i heq
      cases heq
  | case4 =>
    intro _
    rfl

-- ───────────────────────── Marker-insertion relation ─────────────────────────

/-- The literal `[NEEDS EVIDENCE:` that opens every placeholder. -/
def markerLit : Str := str "[NEEDS EVIDENCE:"

/-- A string that is a space followed by a `[NEEDS EVIDENCE: ...]` marker. -/
def MarkerIns (ins : Str) : Prop :=
  (str " " ++ markerLit).isPrefixOf ins = true ∧ ins.getLast? = some ']'

/-- `c'` arises from `c` by inserting one marker substring at one position. -/
def InsertStep (c c' : Str) : Prop :=
  ∃ p q ins, MarkerIns ins ∧ c = p ++ q ∧ c' = p ++ ins ++ q

theorem markerIns_placeholder (s : Str) : MarkerIns (str " " ++ placeholderOf s) := by
  rw [placeholderOf]
  by_cases hnv : 0 < (numericValuesOf s).length
  · rw [if_pos hnv]
    constructor
    · rw [List.isPrefixOf_iff_prefix]
      have h1 : str " " ++ (str "[NEEDS EVIDENCE: source for " ++ numericValuesOf s ++ str "]")
          = (str " " ++ markerLit ++ str " source for ") ++ (numericValuesOf s ++ str "]") := by
        simp only [markerLit, str, List.append_assoc]
        rfl
      rw [h1, ← List.append_assoc]
      exact ((str " " ++ markerLit).prefix_append (str " source for ")).trans
        (List.prefix_append _ _)
    · have h2 : str " " ++ (str "[NEEDS EVIDENCE: source for " ++ numericValuesOf s ++ str "]")
          = (str " [NEEDS EVIDENCE: source for " ++ numericValuesOf s) ++ str "]" := by
        simp only [str, ← List.append_assoc]
        rfl
      rw [h2]
      rw [List.getLast?_append_of_ne_nil]
      · rfl
      · simp [str]
  · rw [if_neg hnv]
    constructor
    · decide
    · decide

theorem insertStep_contains_marker (c c' : Str) (h : InsertStep c c') :
    containsSub c' markerLit = true := by
  obtain ⟨p, q, ins, ⟨hpre, _⟩, _, rfl⟩ := h
  rw [containsSub_iff_isInfix]
  rw [List.isPrefixOf_iff_prefix] at hpre
  obtain ⟨rest, hrest⟩ := hpre
  have hmi : markerLit <:+: ins := by
    rw [← hrest, List.append_assoc]
    exact ⟨str " ", rest, rfl⟩
  exact hmi.trans ⟨p, q, by simp⟩

theorem replaceJS_not_found (c s r : Str) (h : indexOfSub c s = none) :
    replaceJS c s r = c := by
  rw [replaceJS, h]

theorem replaceJS_insert (c s : Str) (k : Nat) (hk : indexOfSub c s = some k)
    (hns : noSpecialsB (s ++ str " " ++ placeholderOf s) = true) :
    replaceJS c s (s ++ str " " ++ placeholderOf s)
      = c.take k ++ s ++ str " " ++ placeholderOf s ++ c.drop (k + s.length) := by
  simp only [replaceJS, hk]
  rw [substJS_id _ _ _ _ hns]
  simp [List.append_assoc]

theorem replaceStep_cases (c s : Str)
    (hns : noSpecialsB (s ++ str " " ++ placeholderOf s) = true) :
    replaceJS c s (s ++ str " " ++ placeholderOf s) = c ∨
      InsertStep c (replaceJS c s (s ++ str " " ++ placeholderOf s)) := by
  cases hk : indexOfSub c s with
  | none => exact Or.inl (replaceJS_not_found c s _ hk)
  | some k =>
    right
    refine ⟨c.take k ++ s, c.drop (k + s.length), str " " ++ placeholderOf s,
      markerIns_placeholder s, ?_, ?_⟩
    · have := indexOfSub_split c s k hk
      rw [List.append_assoc] at this ⊢
      exact this
    · rw [replaceJS_insert c s k hk hns]
      simp [List.append_assoc]

theorem scanMatch_none_iff (re : Re) (s : Str) :
    ∀ (f i : Nat), scanMatch re s f i = none ↔
      ∀ k, i ≤ k → k < i + f → k ≤ s.length → reEnds s re k = [] := by
  intro f
  induction f with
  | zero =>
    intro i
    constructor
    · intro _ k hk1 hk2 _
      omega
    · intro _
      rfl
  | succ f ih =>
    intro i
    rw [scanMatch]
    by_cases hl : s.length < i
    · rw [if_pos hl]
      constructor
      · intro _ k hk1 _ hk3
        omega
      · intro _
        rfl
    · rw [if_neg hl]
      cases he : reEnds s re i with
      | nil =>
        rw [ih (i + 1)]
        constructor
        · intro hall k hk1 hk2 hk3
          rcases Nat.eq_or_lt_of_le hk1 with rfl | hlt
          · exact he
          · exact hall k hlt (by omega) hk3
        · intro hall k hk1 hk2 hk3
          exact hall k (by omega) (by omega) hk3
      | cons e rest =>
        constructor
        · intro hx
          cases hx
        · intro hall
          have := hall i (le_refl i) (by omega) (by omega)
          rw [he] at this
          cases this

theorem firstMatchFrom_none_mono (re : Re) (s : Str)
    (h : firstMatchFrom re s 0 = none) (i : Nat) : firstMatchFrom re s i = none := by
  rw [firstMatchFrom, scanMatch_none_iff] at h ⊢
  intro k hk1 hk2 hk3
  exact h k (Nat.zero_le k) (by omega) hk3

theorem statefulTest_unmarked (s : Str) (h : containsMarkerB s = false) (st : Nat) :
    hasNeedsEvidenceSt st s = (false, 0) := by
  rw [containsMarkerB, testRe] at h
  have h0 : firstMatchFrom markerRe s 0 = none := by
    cases hx : firstMatchFrom markerRe s 0 with
    | none => rfl
    | some v =>
      rw [hx] at h
      cases h
  rw [hasNeedsEvidenceSt, firstMatchFrom_none_mono markerRe s h0 st]

-- ───────────────────────── Sentence-loop lemmas ─────────────────────────

theorem sentenceStep_qualifying (title : Str) (cits : List Citation)
    (c : Str) (gaps : List Str) (st : Nat) (s : Str)
    (h1 : hasNumericClaim s = true) (h2 : containsMarkerB s = false)
    (h3 : citationCoversValue s cits = false) :
    sentenceStep title cits (c, gaps, st) s =
      (replaceJS c s (s ++ str " " ++ placeholderOf s), gaps ++ [gapMsg title s], 0) := by
  simp only [sentenceStep, h1, statefulTest_unmarked s h2 st, h3, Bool.not_true,
    Bool.false_eq_true, if_false]

theorem sentenceStep_shape (title : Str) (cits : List Citation)
    (acc : Str × List Str × Nat) (s : Str)
    (hns : noSpecialsB (s ++ str " " ++ placeholderOf s) = true) :
    ((sentenceStep title cits acc s).1 = acc.1 ∨
      InsertStep acc.1 (sentenceStep title cits acc s).1) ∧
    (∃ add, (sentenceStep title cits acc s).2.1 = acc.2.1 ++ add) := by
  obtain ⟨c, gaps, st⟩ := acc
  rcases hb : hasNeedsEvidenceSt st s with ⟨b, st1⟩
  simp only [sentenceStep, hb]
  by_cases hnc : hasNumericClaim s
  · simp only [hnc, Bool.not_true, Bool.false_eq_true, if_false]
    cases b with
    | true =>
      exact ⟨Or.inl (by simp), [], by simp⟩
    | false =>
      simp only [Bool.false_eq_true, if_false]
      by_cases hcov : citationCoversValue s cits
      · simp only [hcov, if_true]
        exact ⟨Or.inl (by simp), [], by simp⟩
      · simp only [hcov, Bool.false_eq_true, if_false]
        refine ⟨?_, [gapMsg title s], rfl⟩
        exact replaceStep_cases c s hns
  · simp only [Bool.not_eq_true] at hnc
    simp only [hnc, Bool.not_false, if_true]
    exact ⟨Or.inl (by simp), [], by simp⟩

theorem sentenceFold_shape (title : Str) (cits : List Citation) :
    ∀ (l : List Str)
      (hns : ∀ s ∈ l, noSpecialsB (s ++ str " " ++ placeholderOf s) = true)
      (acc : Str × List Str × Nat),
      Relation.ReflTransGen InsertStep acc.1
        ((l.foldl (sentenceStep title cits) acc).1) ∧
      ∃ add, (l.foldl (sentenceStep title cits) acc).2.1 = acc.2.1 ++ add := by
  intro l
  induction l with
  | nil =>
    intro _ acc
    exact ⟨Relation.ReflTransGen.refl, [], by simp⟩
  | cons s rest ih =>
    intro hns acc
    have hstep := sentenceStep_shape title cits acc s (hns s (List.mem_cons_self s rest))
    have hrest := ih (fun t ht => hns t (List.mem_cons_of_mem s ht)) (sentenceStep title cits acc s)
    rw [List.foldl_cons]
    constructor
    · refine Relation.ReflTransGen.trans ?_ hrest.1
      rcases hstep.1 with he | hi
      · rw [he]
      · exact Relation.ReflTransGen.single hi
    · obtain ⟨a1, ha1⟩ := hstep.2
      obtain ⟨a2, ha2⟩ := hrest.2
      exact ⟨a1 ++ a2, by rw [ha2, ha1, List.append_assoc]⟩

theorem sentenceFold_preserve (title : Str) (cits : List Citation) (x : Str) :
    ∀ (l : List Str)
      (hns : ∀ s ∈ l, noSpecialsB (s ++ str " " ++ placeholderOf s) = true)
      (acc : Str × List Str × Nat),
      containsSub acc.1 markerLit = true → x ∈ acc.2.1 →
      containsSub ((l.foldl (sentenceStep title cits) acc).1) markerLit = true ∧
        x ∈ (l.foldl (sentenceStep title cits) acc).2.1 := by
  intro l
  induction l with
  | nil =>
    intro _ acc hm hx
    exact ⟨hm, hx⟩
  | cons s rest ih =>
    intro hns acc hm hx
    have hstep := sentenceStep_shape title cits acc s (hns s (List.mem_cons_self s rest))
    rw [List.foldl_cons]
    refine ih (fun t ht => hns t (List.mem_cons_of_mem s ht)) _ ?_ ?_
    · rcases hstep.1 with he | hi
      · rw [he]
        exact hm
      · exact insertStep_contains_marker _ _ hi
    · obtain ⟨a1, ha1⟩ := hstep.2
      rw [ha1]
      exact List.mem_append_left a1 hx

theorem sentenceFold_qualifying (title : Str) (cits : List Citation) (s : Str)
    (h1 : hasNumericClaim s = true) (h2 : containsMarkerB s = false)
    (h3 : citationCoversValue s cits = false) :
    ∀ (l : List Str)
      (hns : ∀ t ∈ l, noSpecialsB (t ++ str " " ++ placeholderOf t) = true)
      (hs : s ∈ l) (acc : Str × List Str × Nat),
      (containsSub acc.1 s = true ∨ containsSub acc.1 markerLit = true) →
      gapMsg title s ∈ (l.foldl (sentenceStep title cits) acc).2.1 ∧
        containsSub ((l.foldl (sentenceStep title cits) acc).1) markerLit = true := by
  intro l
  induction l with
  | nil =>
    intro _ hs
    cases hs
  | cons s0 rest ih =>
    intro hns hs acc hq
    rw [List.foldl_cons]
    by_cases he : s0 = s
    · subst he
      obtain ⟨c, gaps, st⟩ := acc
      rw [sentenceStep_qualifying title cits c gaps st s0 h1 h2 h3]
      have hmark : containsSub (replaceJS c s0 (s0 ++ str " " ++ placeholderOf s0)) markerLit = true := by
        rcases hq with hqs | hqm
        · cases hk : indexOfSub c s0 with
          | none =>
            rw [containsSub_eq_isSome, hk] at hqs
            cases hqs
          | some k =>
            refine insertStep_contains_marker c _ ?_
            rcases replaceStep_cases c s0 (hns s0 (List.mem_cons_self s0 rest)) with hsame | hins
            · exfalso
              rw [replaceJS_insert c s0 k hk (hns s0 (List.mem_cons_self s0 rest))] at hsame
              have hlen := congrArg List.length hsame
              simp only [List.length_append] at hlen
              have hk2 := indexOfSub_split c s0 k hk
              have hlen2 := congrArg List.length hk2
              simp only [List.length_append, str, List.length_cons] at hlen2 hlen
              simp [str] at hlen
              omega
            · exact hins
        · rcases replaceStep_cases c s0 (hns s0 (List.mem_cons_self s0 rest)) with hsame | hins
          · rw [hsame]
            exact hqm
          · exact insertStep_contains_marker c _ hins
      have := sentenceFold_preserve title cits (gapMsg title s0) rest
        (fun t ht => hns t (List.mem_cons_of_mem s0 ht))
        (replaceJS c s0 (s0 ++ str " " ++ placeholderOf s0), gaps ++ [gapMsg title s0], 0)
        hmark (by simp)
      exact ⟨this.2, this.1⟩
    · have hs' : s ∈ rest := by
        rcases List.mem_cons.mp hs with h | h
        · exact absurd h.symm he
        · exact h
      have hstep := sentenceStep_shape title cits acc s0 (hns s0 (List.mem_cons_self s0 rest))
      refine ih (fun t ht => hns t (List.mem_cons_of_mem s0 ht)) hs' _ ?_
      rcases hstep.1 with heq | hi
      · rw [heq]
        exact hq
      · exact Or.inr (insertStep_contains_marker _ _ hi)

theorem splitAux_isInfix (c : Str) :
    ∀ (fuel p q : Nat) (piece : Str), piece ∈ splitAux c fuel p q → piece <:+: c := by
  intro fuel
  induction fuel with
  | zero =>
    intro p q piece hp
    rw [splitAux, List.mem_singleton] at hp
    subst hp
    exact (List.drop_suffix p c).isInfix
  | succ fuel ih =>
    intro p q piece hp
    rw [splitAux] at hp
    by_cases hq : c.length ≤ q
    · rw [if_pos hq, List.mem_singleton] at hp
      subst hp
      exact (List.drop_suffix p c).isInfix
    · rw [if_neg hq] at hp
      cases hsep : sepMatchAt c q with
      | none =>
        simp only [hsep] at hp
        exact ih p (q + 1) piece hp
      | some e =>
        simp only [hsep] at hp
        by_cases he : (e == p) = true
        · rw [if_pos he] at hp
          exact ih p (q + 1) piece hp
        · rw [if_neg he] at hp
          rcases List.mem_cons.mp hp with rfl | h
          · exact ((List.take_prefix (q - p) (c.drop p)).isInfix).trans
              (List.drop_suffix p c).isInfix
          · exact ih e e piece h

theorem trimStr_isInfix (l : Str) : trimStr l <:+: l := by
  rw [trimStr]
  have h1 : l.dropWhile isSpaceJS <:+ l := List.dropWhile_suffix isSpaceJS
  have h2 : ((l.dropWhile isSpaceJS).reverse.dropWhile isSpaceJS).reverse <+:
      l.dropWhile isSpaceJS := by
    obtain ⟨u, hu⟩ :=
      List.dropWhile_suffix (l := (l.dropWhile isSpaceJS).reverse) (p := isSpaceJS)
    refine ⟨u.reverse, ?_⟩
    rw [← List.reverse_append, hu, List.reverse_reverse]
  exact h2.isInfix.trans h1.isInfix

theorem splitSentences_contains (c s : Str) (hs : s ∈ splitSentences c) :
    containsSub c s = true := by
  rw [splitSentences] at hs
  rw [List.mem_filter] at hs
  obtain ⟨hmem, _⟩ := hs
  rw [List.mem_map] at hmem
  obtain ⟨t, ht, rfl⟩ := hmem
  rw [containsSub_iff_isInfix]
  exact (trimStr_isInfix t).trans (splitAux_isInfix c _ 0 0 t ht)

theorem processSection_shape (done : List LetterSection) (gaps warns : List Str)
    (st : Nat) (sec : LetterSection) :
    ∃ (st1 : Nat) (warns1 : List Str) (w2 : Option (List Str)),
      processSection (done, gaps, warns, st) sec =
        (done ++
          [{ id := sec.id, title := sec.title,
             content := ((splitSentences sec.content).foldl
               (sentenceStep sec.title sec.citations) (sec.content, gaps, st1)).1,
             citations := sec.citations, warnings := w2 }],
         ((splitSentences sec.content).foldl
           (sentenceStep sec.title sec.citations) (sec.content, gaps, st1)).2.1,
         warns1,
         ((splitSentences sec.content).foldl
           (sentenceStep sec.title sec.citations) (sec.content, gaps, st1)).2.2) := by
  rcases hc : (if 0 < sec.citations.length then (true, st)
      else hasNeedsEvidenceSt st sec.content) with ⟨hasCit, st1⟩
  rcases hf : (splitSentences sec.content).foldl
      (sentenceStep sec.title sec.citations) (sec.content, gaps, st1) with ⟨pc, gaps1, st2⟩
  refine ⟨st1,
    (if (!hasCit && sec.id != str "header" && sec.id != str "closing") = true then
       warns ++ [str "Section \"" ++ sec.title ++ str "\" missing citations — verify supporting evidence"]
     else warns),
    (if 0 < (if (!hasCit && sec.id != str "header" && sec.id != str "closing") = true then
         sec.warnings.getD [] ++ [str "Section \"" ++ sec.title ++ str "\" has no citations and no NEEDS EVIDENCE placeholders."]
       else sec.warnings.getD []).length then
       some (if (!hasCit && sec.id != str "header" && sec.id != str "closing") = true then
         sec.warnings.getD [] ++ [str "Section \"" ++ sec.title ++ str "\" has no citations and no NEEDS EVIDENCE placeholders."]
       else sec.warnings.getD [])
     else none), ?_⟩
  simp only [processSection, hc, hf]

theorem sentenceStep_gaps (title : Str) (cits : List Citation)
    (acc : Str × List Str × Nat) (s : Str) :
    ∃ add, (sentenceStep title cits acc s).2.1 = acc.2.1 ++ add := by
  obtain ⟨c, gaps, st⟩ := acc
  rcases hb : hasNeedsEvidenceSt st s with ⟨b, st1⟩
  simp only [sentenceStep, hb]
  by_cases hnc : hasNumericClaim s
  · simp only [hnc, Bool.not_true, Bool.false_eq_true, if_false]
    cases b with
    | true => exact ⟨[], by simp⟩
    | false =>
      simp only [Bool.false_eq_true, if_false]
      by_cases hcov : citationCoversValue s cits
      · simp only [hcov, if_true]
        exact ⟨[], by simp⟩
      · simp only [hcov, Bool.false_eq_true, if_false]
        exact ⟨[gapMsg title s], rfl⟩
  · simp only [Bool.not_eq_true] at hnc
    simp only [hnc, Bool.not_false, if_true]
    exact ⟨[], by simp⟩

theorem sentenceFold_gaps (title : Str) (cits : List Citation) :
    ∀ (l : List Str) (acc : Str × List Str × Nat),
      ∃ add, (l.foldl (sentenceStep title cits) acc).2.1 = acc.2.1 ++ add := by
  intro l
  induction l with
  | nil => exact fun acc => ⟨[], by simp⟩
  | cons s rest ih =>
    intro acc
    rw [List.foldl_cons]
    obtain ⟨a1, ha1⟩ := sentenceStep_gaps title cits acc s
    obtain ⟨a2, ha2⟩ := ih (sentenceStep title cits acc s)
    exact ⟨a1 ++ a2, by rw [ha2, ha1, List.append_assoc]⟩

theorem processSection_parts (done : List LetterSection) (gaps warns : List Str)
    (st : Nat) (sec : LetterSection) :
    ∃ (st1 : Nat) (sec' : LetterSection) (warns1 gadd : List Str) (st2 : Nat),
      sec' = { id := sec.id, title := sec.title,
               content := ((splitSentences sec.content).foldl
                 (sentenceStep sec.title sec.citations) (sec.content, gaps, st1)).1,
               citations := sec.citations, warnings := sec'.warnings } ∧
      ((splitSentences sec.content).foldl
         (sentenceStep sec.title sec.citations) (sec.content, gaps, st1)).2.1 = gaps ++ gadd ∧
      processSection (done, gaps, warns, st) sec = (done ++ [sec'], gaps ++ gadd, warns1, st2) := by
  obtain ⟨st1, warns1, w2, heq⟩ := processSection_shape done gaps warns st sec
  obtain ⟨a1, ha1⟩ := sentenceFold_gaps sec.title sec.citations (splitSentences sec.content)
    (sec.content, gaps, st1)
  refine ⟨st1,
    { id := sec.id, title := sec.title,
      content := ((splitSentences sec.content).foldl
        (sentenceStep sec.title sec.citations) (sec.content, gaps, st1)).1,
      citations := sec.citations, warnings := w2 },
    warns1, a1,
    ((splitSentences sec.content).foldl
      (sentenceStep sec.title sec.citations) (sec.content, gaps, st1)).2.2,
    rfl, ha1, ?_⟩
  rw [heq, ha1]

theorem sectionsFold_preserve :
    ∀ (secs : List LetterSection) (acc : List LetterSection × List Str × List Str × Nat),
      acc.1 <+: (secs.foldl processSection acc).1 ∧
      ∃ add, (secs.foldl processSection acc).2.1 = acc.2.1 ++ add := by
  intro secs
  induction secs with
  | nil => exact fun acc => ⟨List.prefix_refl _, [], by simp⟩
  | cons sec rest ih =>
    intro acc
    obtain ⟨done, gaps, warns, st⟩ := acc
    rw [List.foldl_cons]
    obtain ⟨st1, sec', warns1, gadd, st2, hsec, hgadd, heq⟩ :=
      processSection_parts done gaps warns st sec
    rw [heq]
    obtain ⟨hpre, add2, hadd2⟩ := ih (done ++ [sec'], gaps ++ gadd, warns1, st2)
    constructor
    · exact (List.prefix_append done [sec']).trans hpre
    · exact ⟨gadd ++ add2, by rw [hadd2]; simp [List.append_assoc]⟩

theorem sectionsFold_patch (s : Str)
    (h1 : hasNumericClaim s = true) (h2 : containsMarkerB s = false) :
    ∀ (secs : List LetterSection)
      (hns : ∀ sec ∈ secs, ∀ t ∈ splitSentences sec.content,
        noSpecialsB (t ++ str " " ++ placeholderOf t) = true)
      (i : Nat) (hi : i < secs.length)
      (hs : s ∈ splitSentences ((secs.get ⟨i, hi⟩).content))
      (h3 : citationCoversValue s ((secs.get ⟨i, hi⟩).citations) = false)
      (done : List LetterSection) (gaps warns : List Str) (st : Nat),
      gapMsg ((secs.get ⟨i, hi⟩).title) s ∈
        (secs.foldl processSection (done, gaps, warns, st)).2.1 ∧
      ∃ sec', ((secs.foldl processSection (done, gaps, warns, st)).1)[done.length + i]? =
          some sec' ∧ containsSub sec'.content markerLit = true := by
  intro secs
  induction secs with
  | nil =>
    intro _ i hi
    exact absurd hi (by simp)
  | cons sec rest ih =>
    intro hns i hi hs h3 done gaps warns st
    rw [List.foldl_cons]
    cases i with
    | zero =>
      obtain ⟨st1, sec', warns1, gadd, st2, hsec, hgadd, heq⟩ :=
        processSection_parts done gaps warns st sec
      rw [heq]
      have hq := sentenceFold_qualifying sec.title sec.citations s h1 h2 h3
        (splitSentences sec.content) (hns sec (List.mem_cons_self sec rest)) hs
        (sec.content, gaps, st1)
        (Or.inl (splitSentences_contains sec.content s hs))
      obtain ⟨hpre, add2, hadd2⟩ := sectionsFold_preserve rest (done ++ [sec'], gaps ++ gadd, warns1, st2)
      constructor
      · rw [hadd2]
        refine List.mem_append_left add2 ?_
        rw [← hgadd]
        exact hq.1
      · refine ⟨sec', ?_, ?_⟩
        · obtain ⟨t, ht⟩ := hpre
          rw [← ht]
          rw [Nat.add_zero]
          rw [List.getElem?_append, if_pos (by simp)]
          rw [List.getElem?_append, if_neg (by simp)]
          simp
        · have hcontent : sec'.content =
              ((splitSentences sec.content).foldl
                (sentenceStep sec.title sec.citations) (sec.content, gaps, st1)).1 := by
            rw [hsec]
          rw [hcontent]
          exact hq.2
    | succ i' =>
      obtain ⟨st1, sec', warns1, gadd, st2, hsec, hgadd, heq⟩ :=
        processSection_parts done gaps warns st sec
      rw [heq]
      have hrec := ih (fun t ht u hu => hns t (List.mem_cons_of_mem sec ht) u hu) i'
        (by simpa using Nat.lt_of_succ_lt_succ hi) hs h3
        (done ++ [sec']) (gaps ++ gadd) warns1 st2
      have hidx : (done ++ [sec']).length + i' = done.length + (i' + 1) := by
        simp
        omega
      rw [hidx] at hrec
      exact hrec

theorem insertStep_sublist (c c' : Str) (h : InsertStep c c') : List.Sublist c c' := by
  obtain ⟨p, q, ins, _, rfl, rfl⟩ := h
  rw [List.append_assoc]
  exact (List.Sublist.refl p).append (List.sublist_append_right ins q)

theorem insertChain_sublist (c c' : Str)
    (h : Relation.ReflTransGen InsertStep c c') : List.Sublist c c' := by
  induction h with
  | refl => exact List.Sublist.refl c
  | tail hab hbc ih => exact ih.trans (insertStep_sublist _ _ hbc)

theorem verifySections_eq (secs : List LetterSection) :
    (verifySections secs).sections = (secs.foldl processSection ([], [], [], 0)).1 ∧
    (verifySections secs).unresolvedClaims = (secs.foldl processSection ([], [], [], 0)).2.1 := by
  rcases hf : secs.foldl processSection ([], [], [], 0) with ⟨a, b, c, d⟩
  simp only [verifySections, verifySectionsSt, hf]
  exact ⟨by trivial, by trivial⟩

theorem sectionsFold_frame :
    ∀ (secs : List LetterSection)
      (hns : ∀ sec ∈ secs, ∀ t ∈ splitSentences sec.content,
        noSpecialsB (t ++ str " " ++ placeholderOf t) = true)
      (done : List LetterSection) (gaps warns : List Str) (st : Nat),
      (secs.foldl processSection (done, gaps, warns, st)).1.length = done.length + secs.length ∧
      ∀ i (hi : i < secs.length),
        ∃ sec', ((secs.foldl processSection (done, gaps, warns, st)).1)[done.length + i]? =
            some sec' ∧
          sec'.id = (secs.get ⟨i, hi⟩).id ∧
          sec'.title = (secs.get ⟨i, hi⟩).title ∧
          sec'.citations = (secs.get ⟨i, hi⟩).citations ∧
          Relation.ReflTransGen InsertStep ((secs.get ⟨i, hi⟩).content) sec'.content := by
  intro secs
  induction secs with
  | nil =>
    intro _ done gaps warns st
    refine ⟨by simp, ?_⟩
    intro i hi
    exact absurd hi (by simp)
  | cons sec rest ih =>
    intro hns done gaps warns st
    rw [List.foldl_cons]
    obtain ⟨st1, sec', warns1, gadd, st2, hsec, hgadd, heq⟩ :=
      processSection_parts done gaps warns st sec
    rw [heq]
    obtain ⟨hlen, hidx⟩ := ih (fun t ht u hu => hns t (List.mem_cons_of_mem sec ht) u hu)
      (done ++ [sec']) (gaps ++ gadd) warns1 st2
    constructor
    · rw [hlen]
      simp
      omega
    · intro i hi
      cases i with
      | zero =>
        refine ⟨sec', ?_, ?_, ?_, ?_, ?_⟩
        · obtain ⟨hpre, _⟩ := sectionsFold_preserve rest (done ++ [sec'], gaps ++ gadd, warns1, st2)
          obtain ⟨t, ht⟩ := hpre
          rw [← ht]
          rw [Nat.add_zero]
          rw [List.getElem?_append, if_pos (by simp)]
          rw [List.getElem?_append, if_neg (by simp)]
          simp
        · rw [hsec]
          rfl
        · rw [hsec]
          rfl
        · rw [hsec]
          rfl
        · have hcontent : sec'.content =
              ((splitSentences sec.content).foldl
                (sentenceStep sec.title sec.citations) (sec.content, gaps, st1)).1 := by
            rw [hsec]
          rw [hcontent]
          exact (sentenceFold_shape sec.title sec.citations (splitSentences sec.content)
            (hns sec (List.mem_cons_self sec rest)) (sec.content, gaps, st1)).1
      | succ i' =>
        have hrec := hidx i' (by simpa using Nat.lt_of_succ_lt_succ hi)
        have hidx2 : (done ++ [sec']).length + i' = done.length + (i' + 1) := by
          simp
          omega
        rw [hidx2] at hrec
        exact hrec

-- ───────────────────────── C3 ─────────────────────────

/-- C3 (counterexample): the patch does NOT append the marker after the
first occurrence of the flagged sentence when the sentence contains `$$`:
`String.replace` treats `$$` in the replacement template as an escape, so on
the section `"Pay $$5."` the gap is recorded but the patched content no
longer contains the sentence at all (it was garbled to `"Pay $5. …"`), hence
nothing was appended after its occurrence. -/
theorem verify_patch_counterexample :
    (verifySections [secDollarDollar]).unresolvedClaims =
      [gapMsg secDollarDollar.title (str "Pay $$5.")] ∧
    (verifySections [secDollarDollar]).sections.map
        (fun sec' => containsSub sec'.content (str "Pay $$5.")) = [false] := by
  decide

/-- C3 (amended): for every section `i` and sentence `s` of it that has a
numeric claim, carries no marker and is not covered by its citations, if no
sentence's replacement template contains a `$`-escape pair, then
`verifySections` records the gap entry in `unresolvedClaims`, the output
section `i` contains a `[NEEDS EVIDENCE:` marker, and on any content in
which `s` occurs first at index `k` the patched content is exactly the
content with ` ` + placeholder inserted immediately after that occurrence. -/
theorem verify_patch_amended (sections : List LetterSection) (i : Nat)
    (hi : i < sections.length) (s : Str)
    (hs : s ∈ splitSentences ((sections.get ⟨i, hi⟩).content))
    (h1 : hasNumericClaim s = true) (h2 : containsMarkerB s = false)
    (h3 : citationCoversValue s ((sections.get ⟨i, hi⟩).citations) = false)
    (hns : ∀ sec ∈ sections, ∀ t ∈ splitSentences sec.content,
      noSpecialsB (t ++ str " " ++ placeholderOf t) = true) :
    gapMsg ((sections.get ⟨i, hi⟩).title) s ∈ (verifySections sections).unresolvedClaims ∧
    (∃ sec', (verifySections sections).sections[i]? = some sec' ∧
       containsSub sec'.content markerLit = true) ∧
    (∀ c k, indexOfSub c s = some k →
       replaceJS c s (s ++ str " " ++ placeholderOf s)
         = c.take k ++ s ++ str " " ++ placeholderOf s ++ c.drop (k + s.length)) := by
  obtain ⟨hsecs, hgaps⟩ := verifySections_eq sections
  have hmain := sectionsFold_patch s h1 h2 sections hns i hi hs h3 [] [] [] 0
  refine ⟨?_, ?_, ?_⟩
  · rw [hgaps]
    exact hmain.1
  · rw [hsecs]
    simpa using hmain.2
  · intro c k hk
    exact replaceJS_insert c s k hk
      (hns (sections.get ⟨i, hi⟩) (sections.get_mem i hi) s hs)

/-- Witness for C3 at the single section `"Pay $5."`. -/
theorem verify_patch_amended_witness :
    (str "Pay $5." ∈ splitSentences secPay5.content) ∧
    hasNumericClaim (str "Pay $5.") = true ∧
    containsMarkerB (str "Pay $5.") = false ∧
    citationCoversValue (str "Pay $5.") secPay5.citations = false ∧
    (∀ sec ∈ [secPay5], ∀ t ∈ splitSentences sec.content,
      noSpecialsB (t ++ str " " ++ placeholderOf t) = true) ∧
    (gapMsg secPay5.title (str "Pay $5.") ∈ (verifySections [secPay5]).unresolvedClaims ∧
     (∃ sec', (verifySections [secPay5]).sections[0]? = some sec' ∧
        containsSub sec'.content markerLit = true) ∧
     (∀ c k, indexOfSub c (str "Pay $5.") = some k →
        replaceJS c (str "Pay $5.") (str "Pay $5." ++ str " " ++ placeholderOf (str "Pay $5."))
          = c.take k ++ str "Pay $5." ++ str " " ++ placeholderOf (str "Pay $5.") ++
              c.drop (k + (str "Pay $5.").length))) :=
  ⟨by decide, by decide, by decide, by decide, by decide,
   verify_patch_amended [secPay5] 0 (by decide) (str "Pay $5.")
     (by decide) (by decide) (by decide) (by decide) (by decide)⟩

-- ───────────────────────── C10 ─────────────────────────

/-- C10 (counterexample): on the section `"Pay $$5."` the output content is
not the input content with marker substrings inserted: no sequence of
insertions relates them (an insertion-only edit would make the input a
sublist of the output, which fails). -/
theorem verify_frame_counterexample :
    ∃ sec' ∈ (verifySections [secDollarDollar]).sections,
      ¬ Relation.ReflTransGen InsertStep secDollarDollar.content sec'.content := by
  refine ⟨{ id := str "x", title := str "T",
            content := str "Pay $5. [NEEDS EVIDENCE: source for $5]",
            citations := [],
            warnings := some [str "Section \"T\" has no citations and no NEEDS EVIDENCE placeholders."] },
          by decide, ?_⟩
  intro hchain
  have hsub := insertChain_sublist _ _ hchain
  revert hsub
  decide

/-- C10 (amended): if no sentence's replacement template contains a
`$`-escape pair, `verifySections` preserves the number and order of
sections and each output section's `id`, `title` and `citations`, and each
output content arises from the input content by a (possibly empty) sequence
of single insertions of ` [NEEDS EVIDENCE: ...]` marker substrings. -/
theorem verify_frame_amended (sections : List LetterSection)
    (hns : ∀ sec ∈ sections, ∀ t ∈ splitSentences sec.content,
      noSpecialsB (t ++ str " " ++ placeholderOf t) = true) :
    (verifySections sections).sections.length = sections.length ∧
    ∀ i (hi : i < sections.length),
      ∃ sec', (verifySections sections).sections[i]? = some sec' ∧
        sec'.id = (sections.get ⟨i, hi⟩).id ∧
        sec'.title = (sections.get ⟨i, hi⟩).title ∧
        sec'.citations = (sections.get ⟨i, hi⟩).citations ∧
        Relation.ReflTransGen InsertStep ((sections.get ⟨i, hi⟩).content) sec'.content := by
  obtain ⟨hsecs, _⟩ := verifySections_eq sections
  obtain ⟨hlen, hidx⟩ := sectionsFold_frame sections hns [] [] [] 0
  rw [hsecs]
  constructor
  · rw [hlen]
    simp
  · intro i hi
    have := hidx i hi
    simpa using this

/-- Witness for C10 at the single section `"Pay $5."`. -/
theorem verify_frame_amended_witness :
    (∀ sec ∈ [secPay5], ∀ t ∈ splitSentences sec.content,
      noSpecialsB (t ++ str " " ++ placeholderOf t) = true) ∧
    ((verifySections [secPay5]).sections.length = [secPay5].length ∧
     ∀ i (hi : i < [secPay5].length),
       ∃ sec', (verifySections [secPay5]).sections[i]? = some sec' ∧
         sec'.id = ([secPay5].get ⟨i, hi⟩).id ∧
         sec'.title = ([secPay5].get ⟨i, hi⟩).title ∧
         sec'.citations = ([secPay5].get ⟨i, hi⟩).citations ∧
         Relation.ReflTransGen InsertStep (([secPay5].get ⟨i, hi⟩).content) sec'.content) :=
  ⟨by decide, verify_frame_amended [secPay5] (by decide)⟩
